import Mathlib

/-!
Verification development for the MeetMind transcript pipeline.

Strings from the source are embedded as `List Char` (`Str`).  JavaScript
numbers that can be `NaN` or `Infinity` are embedded as `JSNum`; plain
finite numbers are embedded as `ℚ`.
-/

set_option linter.unusedVariables false

abbrev Str := List Char

/-- One character of the JS `\s` class (also the set used by `trim`). -/
def isJsWs (c : Char) : Bool :=
  [9, 10, 11, 12, 13, 32, 160, 5760, 8192, 8193, 8194, 8195, 8196, 8197,
   8198, 8199, 8200, 8201, 8202, 8232, 8233, 8239, 8287, 12288, 65279].contains c.toNat

/-- The punctuation class `[.,!?]` used by `cleanText`. -/
def isPunct (c : Char) : Bool :=
  c == '.' || c == ',' || c == '!' || c == '?'

/-- ASCII decimal digit test. -/
def isDigitCh (c : Char) : Bool :=
  48 ≤ c.toNat && c.toNat ≤ 57

/-- JS `String.prototype.split` with a one-character separator. -/
def splitOnChar (sep : Char) : Str → List Str
  | [] => [[]]
  | c :: cs =>
    if c = sep then [] :: splitOnChar sep cs
    else
      match splitOnChar sep cs with
      | [] => [[c]]
      | t :: ts => (c :: t) :: ts

theorem dropWhile_length_le (p : Char → Bool) (l : Str) :
    (l.dropWhile p).length ≤ l.length := by
  induction l with
  | nil => simp [List.dropWhile]
  | cons c cs ih =>
    by_cases h : p c
    · simp only [List.dropWhile, h, List.length_cons]
      omega
    · simp [List.dropWhile, h]

/-- JS `String.prototype.trim` (also the `/^\s+|\s+$/g` removal). -/
def trimJs (l : Str) : Str :=
  (((l.dropWhile isJsWs).reverse.dropWhile isJsWs)).reverse

/-- Scanner for `/\s+/g → ' '`: `inRun` records whether the previous
character belonged to the current whitespace run (already emitted as one
space). -/
def collapseGo (inRun : Bool) : Str → Str
  | [] => []
  | c :: cs =>
    if isJsWs c then
      if inRun then collapseGo true cs else ' ' :: collapseGo true cs
    else c :: collapseGo false cs

/-- The replacement `/\s+/g → ' '`: each maximal whitespace run becomes one space. -/
def collapseWs (l : Str) : Str :=
  collapseGo false l

/-- Scanner for `/\s+([.,!?])/g → '$1'`: `pending` holds the whitespace run
seen so far; it is dropped when punctuation follows, kept otherwise. -/
def rmGo (pending : Str) : Str → Str
  | [] => pending
  | c :: cs =>
    if isJsWs c then rmGo (pending ++ [c]) cs
    else if isPunct c && !(pending == []) then c :: rmGo [] cs
    else pending ++ c :: rmGo [] cs

/-- The replacement `/\s+([.,!?])/g → '$1'`: a maximal whitespace run
immediately followed by punctuation is deleted. -/
def rmWsBeforePunct (l : Str) : Str :=
  rmGo [] l

/-- The replacement `/([.,!?])([^\s])/g → '$1 $2'`: a space is inserted after
punctuation when the next character is not whitespace; scanning resumes after
the consumed pair. -/
def addSpaceAfterPunct : Str → Str
  | [] => []
  | [c] => [c]
  | c1 :: c2 :: cs =>
    if isPunct c1 && !isJsWs c2 then c1 :: ' ' :: c2 :: addSpaceAfterPunct cs
    else c1 :: addSpaceAfterPunct (c2 :: cs)

/-- `cleanText` from `transcriptUtils.ts`: collapse whitespace, trim, drop
space before punctuation, add space after punctuation, trim. -/
def cleanText (text : Str) : Str :=
  if text = [] then []
  else trimJs (addSpaceAfterPunct (rmWsBeforePunct (trimJs (collapseWs text))))

/-! ### Decimal rendering and JS numbers -/

/-- Decimal digit character for a digit value, as produced by JS number
rendering. -/
def digitToChar : Nat → Char
  | 0 => '0' | 1 => '1' | 2 => '2' | 3 => '3' | 4 => '4'
  | 5 => '5' | 6 => '6' | 7 => '7' | 8 => '8' | 9 => '9'
  | _ => '*'

/-- Big-endian decimal digits of `n`, with enough fuel. -/
def natDigitsBE : Nat → Nat → Str
  | 0, _ => []
  | fuel + 1, n =>
    if n = 0 then [] else natDigitsBE fuel (n / 10) ++ [digitToChar (n % 10)]

/-- JS rendering of a non-negative integer (template literal interpolation
of a whole number): its decimal digits. -/
def natToDecStr (n : Nat) : Str :=
  if n = 0 then ['0'] else natDigitsBE n n

/-- JS `String.prototype.padStart(2, '0')`. -/
def padStart2 (l : Str) : Str :=
  if l.length < 2 then List.replicate (2 - l.length) '0' ++ l else l

/-- A JavaScript number as used by the time helpers: `NaN`, `Infinity`, or a
finite value (modelled as a rational). -/
inductive JSNum : Type
  | nan : JSNum
  | inf : JSNum
  | num : ℚ → JSNum
deriving DecidableEq, Repr

/-- JS addition on `JSNum` (no negative infinity arises in this program). -/
def jadd : JSNum → JSNum → JSNum
  | JSNum.nan, _ => JSNum.nan
  | _, JSNum.nan => JSNum.nan
  | JSNum.inf, _ => JSNum.inf
  | _, JSNum.inf => JSNum.inf
  | JSNum.num a, JSNum.num b => JSNum.num (a + b)

/-- JS multiplication on `JSNum`: `NaN` propagates and `Infinity * 0 = NaN`. -/
def jmul : JSNum → JSNum → JSNum
  | JSNum.nan, _ => JSNum.nan
  | _, JSNum.nan => JSNum.nan
  | JSNum.inf, JSNum.inf => JSNum.inf
  | JSNum.inf, JSNum.num b => if b = 0 then JSNum.nan else JSNum.inf
  | JSNum.num a, JSNum.inf => if a = 0 then JSNum.nan else JSNum.inf
  | JSNum.num a, JSNum.num b => JSNum.num (a * b)

/-- JS `<=` on `JSNum`: any comparison with `NaN` is false. -/
def jle : JSNum → JSNum → Bool
  | JSNum.nan, _ => false
  | _, JSNum.nan => false
  | JSNum.inf, JSNum.inf => true
  | JSNum.num _, JSNum.inf => true
  | JSNum.inf, JSNum.num _ => false
  | JSNum.num a, JSNum.num b => decide (a ≤ b)

/-- JS `<` on `JSNum`: any comparison with `NaN` is false. -/
def jlt : JSNum → JSNum → Bool
  | JSNum.nan, _ => false
  | _, JSNum.nan => false
  | JSNum.inf, JSNum.inf => false
  | JSNum.num _, JSNum.inf => true
  | JSNum.inf, JSNum.num _ => false
  | JSNum.num a, JSNum.num b => decide (a < b)

/-- Decimal value of a digit string, folded the way `Number` accumulates
digits. -/
def decVal (l : Str) : Nat :=
  l.foldl (fun a c => 10 * a + (c.toNat - 48)) 0

/-- Modelled JS `Number(string)` on the fragment this program feeds it:
after trimming JS whitespace, the empty string is `0`; an unsigned decimal
numeral (digits with at most one point, at least one digit) is its value;
anything else (such as a field with letters) is `NaN`.  Exponents, signs,
and hex forms never occur in this program's inputs. -/
def jsNumber (cs : Str) : JSNum :=
  let t := trimJs cs
  if t = [] then JSNum.num 0
  else
    match splitOnChar '.' t with
    | [a] => if a.all isDigitCh then JSNum.num (decVal a) else JSNum.nan
    | [a, b] =>
      if a.all isDigitCh && b.all isDigitCh && !(a ++ b == []) then
        JSNum.num ((decVal a : ℚ) + (decVal b : ℚ) / (10 : ℚ) ^ b.length)
      else JSNum.nan
    | _ => JSNum.nan

/-- JS truncation toward zero, as used by the `%` operator. -/
def jsTrunc (q : ℚ) : ℤ :=
  if 0 ≤ q then ⌊q⌋ else ⌈q⌉

/-- JS remainder `a % b` for finite operands (`a - b * trunc (a / b)`). -/
def jsMod (a b : ℚ) : ℚ :=
  a - b * (jsTrunc (a / b) : ℚ)

/-- `formatTime` from `transcriptUtils.ts`: seconds to `HH:MM:SS`, or
`MM:SS` when the hour part is zero.  The `isNaN` guard of the source cannot
fire on a rational input and is dropped. -/
def formatTime (seconds : ℚ) : Str :=
  let secs := max 0 seconds
  let hours := ⌊secs / 3600⌋
  let mins := ⌊jsMod secs 3600 / 60⌋
  let remainingSecs := ⌊jsMod secs 60⌋
  if hours > 0 then
    padStart2 (natToDecStr hours.toNat) ++ ':' ::
      padStart2 (natToDecStr mins.toNat) ++ ':' ::
        padStart2 (natToDecStr remainingSecs.toNat)
  else
    padStart2 (natToDecStr mins.toNat) ++ ':' ::
      padStart2 (natToDecStr remainingSecs.toNat)

/-- The `reduce` of `timeToSeconds`: `total + part * 60 ^ index` over the
reversed field list. -/
def reduceParts : List JSNum → Nat → JSNum → JSNum
  | [], _, total => total
  | p :: ps, i, total =>
    reduceParts ps (i + 1) (jadd total (jmul p (JSNum.num ((60 : ℚ) ^ i))))

/-- `timeToSeconds` from `Transcript.tsx`: split on `:`, map `Number`,
reverse, and accumulate with powers of 60. -/
def timeToSeconds (timeStr : Str) : JSNum :=
  reduceParts (((splitOnChar ':' timeStr).map jsNumber).reverse) 0 (JSNum.num 0)

example : timeToSeconds "ab:cd".data = JSNum.nan := by decide
example : natToDecStr 125 = ['1', '2', '5'] := by decide
example : padStart2 (natToDecStr 5) = ['0', '5'] := by decide
example : formatTime 5 = "00:05".data := by
  norm_num [formatTime, jsMod, jsTrunc]
  decide
example : formatTime 3725 = "01:02:05".data := by
  norm_num [formatTime, jsMod, jsTrunc]
  decide

/-! ### `transcriptUtils.ts`: words and segment formatting -/

/-- The `Word` interface.  `end` is a Lean keyword, so that field is named
`endTime`; optional fields are `Option`s. -/
structure Word : Type where
  text : Str
  start : Option ℚ := none
  endTime : Option ℚ := none
  confidence : Option ℚ := none
  speaker : Option Str := none
deriving DecidableEq, Repr

/-- A transcript segment: cleaned text plus a clock string. -/
structure TranscriptSegment : Type where
  text : Str
  startTime : Str
deriving DecidableEq, Repr

instance : Inhabited TranscriptSegment := ⟨⟨[], []⟩⟩

/-- `word.start || 0`: a missing start is 0; a 0 start is also 0. -/
def wordStartVal (w : Word) : ℚ := w.start.getD 0

/-- `word.end || 0`. -/
def wordEndVal (w : Word) : ℚ := w.endTime.getD 0

/-- The `isLongPause` test from the `formatTranscript` loop, with
`PAUSE_THRESHOLD = 2`. -/
def isLongPauseB (prevWord : Option Word) (w : Word) : Bool :=
  match prevWord with
  | none => false
  | some p =>
    decide (0 < wordStartVal w) && decide (0 < wordEndVal p) &&
      decide (2 < wordStartVal w - wordEndVal p)

/-- Flush a finished segment: push it only when its cleaned text is
non-empty. -/
def pushSegment (segs : List TranscriptSegment) (cur : List Str)
    (segStart : ℚ) : List TranscriptSegment :=
  let segmentText := cleanText (List.intercalate [' '] cur)
  if segmentText ≠ [] then
    segs ++ [⟨segmentText, formatTime segStart⟩]
  else segs

/-- The word loop of `formatTranscript`: `i` is the loop index, `prev` the
previous word (also when that word was skipped for empty text), `cur` the
words of the open segment, `segStart` its start. -/
def ftLoop : List Word → Nat → Option Word → List Str → ℚ →
    List TranscriptSegment → List TranscriptSegment
  | [], _, _, cur, segStart, segs =>
    if cur ≠ [] then pushSegment segs cur segStart else segs
  | w :: ws, i, prev, cur, segStart, segs =>
    if trimJs w.text = [] then ftLoop ws (i + 1) (some w) cur segStart segs
    else if (isLongPauseB prev w || i == 0) && cur ≠ [] then
      ftLoop ws (i + 1) (some w) [trimJs w.text] (wordStartVal w)
        (pushSegment segs cur segStart)
    else
      ftLoop ws (i + 1) (some w) (cur ++ [trimJs w.text]) segStart segs

/-- `formatTranscript` from `transcriptUtils.ts` (the `try`/`catch` cannot
fire: every step is total). -/
def formatTranscript (words : List Word) : List TranscriptSegment :=
  match words with
  | [] => []
  | w :: _ => ftLoop words 0 none [] (wordStartVal w) []

/-! ### `Transcript.tsx`: component state, reprocess guard, active search -/

/-- The fingerprint of a token list.  The source builds the JSON string of
`words.map(w => `${w.start}-${w.end}-${w.text}`)`; that string is a function
of exactly these triples, so the fingerprint is modelled as the triple
list itself. -/
def fingerprint (words : List Word) : List (Option ℚ × Option ℚ × Str) :=
  words.map fun w => (w.start, w.endTime, w.text)

/-- The mutable pieces of the `Transcript` component that the claims
mention: the stored segments, loading flag, error, active-segment index,
the last processed fingerprint and the last recorded active index. -/
structure CState : Type where
  formattedSegments : List TranscriptSegment
  isLoading : Bool
  error : Option Str
  activeSegmentIndex : Int
  lastProcessedId : Option (List (Option ℚ × Option ℚ × Str))
  lastActiveIndex : Int
deriving DecidableEq, Repr

/-- What a `processTranscript` call did. -/
inductive PAction : Type
  | clearedEmpty : PAction
  | cacheHit : PAction
  | segmented : PAction
deriving DecidableEq, Repr

/-- `processTranscript` from `Transcript.tsx`: empty input clears the list;
a fingerprint match returns without touching anything; otherwise the
segmenter runs and segments, fingerprint, loading and error are stored. -/
def processTranscript (st : CState) (words : List Word) : CState × PAction :=
  if words = [] then
    ({ st with formattedSegments := [], isLoading := false }, PAction.clearedEmpty)
  else if st.lastProcessedId = some (fingerprint words) then
    (st, PAction.cacheHit)
  else
    ({ st with
        formattedSegments := formatTranscript words
        isLoading := false
        error := none
        lastProcessedId := some (fingerprint words) }, PAction.segmented)

/-- The body of the `findIndex` predicate: the segment's start (in seconds)
is `<= t`, and `t <` the next segment's start, `Infinity` for the last
segment. -/
def activeCond (segs : List TranscriptSegment) (t : ℚ) (i : Nat) : Bool :=
  let segmentStart := timeToSeconds (segs.getD i default).startTime
  let nextSegmentStart :=
    if i < segs.length - 1 then timeToSeconds (segs.getD (i + 1) default).startTime
    else JSNum.inf
  jle segmentStart (JSNum.num t) && jlt (JSNum.num t) nextSegmentStart

/-- `findIndex` scanning: `i` is the index of the head of `rest` inside
`segs`. -/
def findActiveGo (segs : List TranscriptSegment) (t : ℚ) :
    Nat → List TranscriptSegment → Int
  | _, [] => -1
  | i, _ :: rest => if activeCond segs t i then (i : Int) else findActiveGo segs t (i + 1) rest

/-- The active-segment search of the time-update effect: the first index
whose `[start, nextStart)` window contains `t`, else `-1`. -/
def findActive (segs : List TranscriptSegment) (t : ℚ) : Int :=
  findActiveGo segs t 0 segs

/-- The time-update effect of `Transcript.tsx`: return early on an empty
segment list; otherwise compute the active index and store it (and notify)
only when it differs from the last recorded one.  The boolean reports
whether a state update happened. -/
def timeUpdate (st : CState) (currentTime : ℚ) : CState × Bool :=
  if st.formattedSegments = [] then (st, false)
  else
    let activeIndex := findActive st.formattedSegments currentTime
    if activeIndex ≠ st.lastActiveIndex then
      ({ st with activeSegmentIndex := activeIndex, lastActiveIndex := activeIndex }, true)
    else (st, false)

/-! ### Character-class and string lemmas -/

theorem dropWhile_eq_self_of {p : Char → Bool} {l : Str}
    (h : ∀ c ∈ l, p c = false) : l.dropWhile p = l := by
  cases l with
  | nil => rfl
  | cons c cs => simp [List.dropWhile, h c (List.mem_cons_self c cs)]

theorem digit_not_ws {c : Char} (h : isDigitCh c = true) : isJsWs c = false := by
  simp only [isDigitCh, Bool.and_eq_true, decide_eq_true_eq] at h
  simp only [isJsWs]
  rw [Bool.eq_false_iff]
  intro hc
  have hmem := List.elem_iff.mp hc
  simp only [List.mem_cons, List.not_mem_nil, or_false] at hmem
  omega

theorem digit_ne_colon {c : Char} (h : isDigitCh c = true) : c ≠ ':' := by
  simp only [isDigitCh, Bool.and_eq_true, decide_eq_true_eq] at h
  intro he
  subst he
  simp at h

theorem digit_ne_dot {c : Char} (h : isDigitCh c = true) : c ≠ '.' := by
  simp only [isDigitCh, Bool.and_eq_true, decide_eq_true_eq] at h
  intro he
  subst he
  simp at h

theorem trimJs_of_no_ws {l : Str} (h : ∀ c ∈ l, isJsWs c = false) :
    trimJs l = l := by
  unfold trimJs
  rw [dropWhile_eq_self_of h, dropWhile_eq_self_of, List.reverse_reverse]
  intro c hc
  exact h c (List.mem_reverse.mp hc)

theorem splitOnChar_no_sep {sep : Char} {l : Str} (h : sep ∉ l) :
    splitOnChar sep l = [l] := by
  induction l with
  | nil => rfl
  | cons c cs ih =>
    simp only [List.mem_cons, not_or] at h
    simp only [splitOnChar, if_neg (Ne.symm h.1), ih h.2]

theorem splitOnChar_append {sep : Char} {xs ys : Str} (h : sep ∉ xs) :
    splitOnChar sep (xs ++ sep :: ys) = xs :: splitOnChar sep ys := by
  induction xs with
  | nil => simp [splitOnChar]
  | cons c cs ih =>
    simp only [List.mem_cons, not_or] at h
    have hrec := ih h.2
    simp only [List.cons_append, splitOnChar, if_neg (Ne.symm h.1), hrec]
    have : ∃ t ts, splitOnChar sep ys = t :: ts := by
      cases ys with
      | nil => exact ⟨[], [], rfl⟩
      | cons y ys' =>
        simp only [splitOnChar]
        by_cases hy : y = sep
        · exact ⟨[], splitOnChar sep ys', by simp [hy]⟩
        · rcases hsp : splitOnChar sep ys' with _ | ⟨t, ts⟩
          · exact ⟨[y], [], by simp [hy, hsp]⟩
          · exact ⟨y :: t, ts, by simp [hy, hsp]⟩
    obtain ⟨t, ts, hts⟩ := this
    rw [show cs.append (sep :: ys) = cs ++ sep :: ys from rfl, hrec]

theorem jsNumber_digits {l : Str} (hd : l.all isDigitCh = true) (hne : l ≠ []) :
    jsNumber l = JSNum.num (decVal l) := by
  have hall : ∀ c ∈ l, isDigitCh c = true := by simpa [List.all_eq_true] using hd
  have htrim : trimJs l = l := trimJs_of_no_ws fun c hc => digit_not_ws (hall c hc)
  have hdot : '.' ∉ l := fun hmem => digit_ne_dot (hall _ hmem) rfl
  simp [jsNumber, htrim, if_neg hne, splitOnChar_no_sep hdot, hd]

/-! ### Decimal rendering round-trip -/

theorem digitToChar_isDigit {d : Nat} (h : d < 10) :
    isDigitCh (digitToChar d) = true := by
  interval_cases d <;> decide

theorem digitToChar_toNat {d : Nat} (h : d < 10) :
    (digitToChar d).toNat - 48 = d := by
  interval_cases d <;> decide

theorem natDigitsBE_foldl (fuel : Nat) :
    ∀ n a, n ≤ fuel →
      (natDigitsBE fuel n).foldl (fun x c => 10 * x + (c.toNat - 48)) a =
        a * 10 ^ (natDigitsBE fuel n).length + n := by
  induction fuel with
  | zero =>
    intro n a h
    interval_cases n
    simp [natDigitsBE]
  | succ fuel ih =>
    intro n a h
    by_cases hn : n = 0
    · simp [natDigitsBE, hn]
    · have hdiv : n / 10 ≤ fuel := by omega
      simp only [natDigitsBE, if_neg hn, List.foldl_append, List.length_append,
        List.length_singleton, List.foldl_cons, List.foldl_nil, ih (n / 10) a hdiv]
      rw [digitToChar_toNat (Nat.mod_lt n (by norm_num))]
      have hmod := Nat.div_add_mod n 10
      rw [pow_succ]
      ring_nf
      omega

theorem natDigitsBE_digits (fuel : Nat) :
    ∀ n, (natDigitsBE fuel n).all isDigitCh = true := by
  induction fuel with
  | zero => intro n; simp [natDigitsBE]
  | succ fuel ih =>
    intro n
    by_cases hn : n = 0
    · simp [natDigitsBE, hn]
    · simp only [natDigitsBE, if_neg hn, List.all_append, ih (n / 10),
        Bool.and_eq_true, List.all_cons, List.all_nil, Bool.and_true]
      exact ⟨trivial, digitToChar_isDigit (Nat.mod_lt n (by norm_num))⟩

theorem decVal_natToDecStr (n : Nat) : decVal (natToDecStr n) = n := by
  by_cases hn : n = 0
  · simp [hn, natToDecStr, decVal, digitToChar]
  · simp only [natToDecStr, if_neg hn, decVal]
    rw [natDigitsBE_foldl n n 0 (le_refl n)]
    ring

theorem natToDecStr_digits (n : Nat) : (natToDecStr n).all isDigitCh = true := by
  by_cases hn : n = 0
  · simp [hn, natToDecStr, digitToChar, isDigitCh]
  · simp only [natToDecStr, if_neg hn]
    exact natDigitsBE_digits n n

theorem natToDecStr_ne_nil (n : Nat) : natToDecStr n ≠ [] := by
  by_cases hn : n = 0
  · simp [hn, natToDecStr]
  · simp only [natToDecStr, if_neg hn]
    cases n with
    | zero => exact absurd rfl hn
    | succ m =>
      simp only [natDigitsBE, if_neg hn]
      simp

theorem decVal_replicate_zero (k : Nat) (l : Str) :
    decVal (List.replicate k '0' ++ l) = decVal l := by
  induction k with
  | zero => simp
  | succ k ih =>
    simpa [List.replicate_succ, decVal] using ih

theorem decVal_padStart2 (l : Str) : decVal (padStart2 l) = decVal l := by
  unfold padStart2
  by_cases h : l.length < 2
  · simp only [if_pos h]
    exact decVal_replicate_zero _ l
  · simp [if_neg h]

theorem padStart2_digits {l : Str} (h : l.all isDigitCh = true) :
    (padStart2 l).all isDigitCh = true := by
  unfold padStart2
  by_cases hl : l.length < 2
  · simp only [if_pos hl, List.all_append, h, Bool.and_true]
    rw [List.all_eq_true]
    intro c hc
    rw [List.eq_of_mem_replicate hc]
    decide
  · simpa [if_neg hl] using h

theorem padStart2_ne_nil {l : Str} (h : l ≠ []) : padStart2 l ≠ [] := by
  unfold padStart2
  by_cases hl : l.length < 2
  · simp only [if_pos hl]
    intro hc
    exact h (List.append_eq_nil.mp hc).2
  · simpa [if_neg hl] using h

/-! ### Evaluating `timeToSeconds` on rendered clock strings -/

theorem colon_not_mem {l : Str} (h : l.all isDigitCh = true) : ':' ∉ l := by
  rw [List.all_eq_true] at h
  intro hmem
  exact digit_ne_colon (h _ hmem) rfl

theorem timeToSeconds_eval2 {a b : Str}
    (ha : a.all isDigitCh = true) (hb : b.all isDigitCh = true)
    (ha2 : a ≠ []) (hb2 : b ≠ []) :
    timeToSeconds (a ++ ':' :: b) =
      JSNum.num ((decVal b : ℚ) + (decVal a : ℚ) * 60) := by
  unfold timeToSeconds
  rw [splitOnChar_append (colon_not_mem ha), splitOnChar_no_sep (colon_not_mem hb)]
  simp only [List.map_cons, List.map_nil, List.reverse_cons, List.reverse_nil,
    List.nil_append, List.cons_append, jsNumber_digits ha ha2, jsNumber_digits hb hb2,
    reduceParts, jadd, jmul]
  congr 1
  ring

theorem timeToSeconds_eval3 {a b c : Str}
    (ha : a.all isDigitCh = true) (hb : b.all isDigitCh = true)
    (hc : c.all isDigitCh = true) (ha2 : a ≠ []) (hb2 : b ≠ []) (hc2 : c ≠ []) :
    timeToSeconds (a ++ ':' :: (b ++ ':' :: c)) =
      JSNum.num ((decVal c : ℚ) + (decVal b : ℚ) * 60 + (decVal a : ℚ) * 3600) := by
  unfold timeToSeconds
  rw [splitOnChar_append (colon_not_mem ha), splitOnChar_append (colon_not_mem hb),
    splitOnChar_no_sep (colon_not_mem hc)]
  simp only [List.map_cons, List.map_nil, List.reverse_cons, List.reverse_nil,
    List.nil_append, List.cons_append, jsNumber_digits ha ha2, jsNumber_digits hb hb2,
    jsNumber_digits hc hc2, reduceParts, jadd, jmul]
  congr 1
  ring

/-! ### `formatTime` decomposed through the floor of its input -/

theorem floor_div_nat_of_nonneg (a : ℚ) (n : ℕ) (ha : 0 ≤ a) (hn : 0 < n) :
    ⌊a / (n : ℚ)⌋ = ⌊a⌋ / (n : ℤ) := by
  have hnq : (0 : ℚ) < (n : ℚ) := by exact_mod_cast hn
  have hnz : (n : ℤ) ≠ 0 := by exact_mod_cast hn.ne'
  rw [Int.floor_eq_iff]
  constructor
  · rw [le_div_iff₀ hnq]
    have h1 : (⌊a⌋ / (n : ℤ)) * (n : ℤ) ≤ ⌊a⌋ := Int.ediv_mul_le ⌊a⌋ hnz
    calc ((⌊a⌋ / (n : ℤ) : ℤ) : ℚ) * (n : ℚ) = (((⌊a⌋ / (n : ℤ)) * (n : ℤ) : ℤ) : ℚ) := by
          push_cast; ring
      _ ≤ ((⌊a⌋ : ℤ) : ℚ) := by exact_mod_cast h1
      _ ≤ a := Int.floor_le a
  · rw [div_lt_iff₀ hnq]
    have h2 : a < ((⌊a⌋ : ℤ) : ℚ) + 1 := Int.lt_floor_add_one a
    have h3 : ⌊a⌋ + 1 ≤ (⌊a⌋ / (n : ℤ) + 1) * (n : ℤ) := by
      have hdm := Int.ediv_add_emod ⌊a⌋ (n : ℤ)
      have hm0 : 0 ≤ ⌊a⌋ % (n : ℤ) := Int.emod_nonneg ⌊a⌋ hnz
      have hml : ⌊a⌋ % (n : ℤ) < (n : ℤ) := Int.emod_lt_of_pos ⌊a⌋ (by exact_mod_cast hn)
      nlinarith
    calc a < ((⌊a⌋ : ℤ) : ℚ) + 1 := h2
      _ = (((⌊a⌋ + 1 : ℤ)) : ℚ) := by push_cast; ring
      _ ≤ (((⌊a⌋ / (n : ℤ) + 1) * (n : ℤ) : ℤ) : ℚ) := by exact_mod_cast h3
      _ = ((⌊a⌋ / (n : ℤ) : ℤ) : ℚ) * (n : ℚ) + (n : ℚ) := by push_cast; ring
      _ = (((⌊a⌋ / (n : ℤ) : ℤ) : ℚ) + 1) * (n : ℚ) := by ring

/-- Floor of a rational divided by a positive integer. -/
theorem floor_div_pos_int (a : ℚ) (d : ℤ) (hd : 0 < d) :
    ⌊a / (d : ℚ)⌋ = ⌊a⌋ / d := by
  have hdq : (0 : ℚ) < (d : ℚ) := by exact_mod_cast hd
  have hdz : d ≠ 0 := hd.ne'
  rw [Int.floor_eq_iff]
  constructor
  · rw [le_div_iff₀ hdq]
    have h1 : (⌊a⌋ / d) * d ≤ ⌊a⌋ := Int.ediv_mul_le ⌊a⌋ hdz
    calc ((⌊a⌋ / d : ℤ) : ℚ) * (d : ℚ) = (((⌊a⌋ / d) * d : ℤ) : ℚ) := by push_cast; ring
      _ ≤ ((⌊a⌋ : ℤ) : ℚ) := by exact_mod_cast h1
      _ ≤ a := Int.floor_le a
  · rw [div_lt_iff₀ hdq]
    have h2 : a < ((⌊a⌋ : ℤ) : ℚ) + 1 := Int.lt_floor_add_one a
    have h3 : ⌊a⌋ + 1 ≤ (⌊a⌋ / d + 1) * d := by
      have hdm := Int.ediv_add_emod ⌊a⌋ d
      have hm0 : 0 ≤ ⌊a⌋ % d := Int.emod_nonneg ⌊a⌋ hdz
      have hml : ⌊a⌋ % d < d := Int.emod_lt_of_pos ⌊a⌋ hd
      nlinarith
    calc a < ((⌊a⌋ : ℤ) : ℚ) + 1 := h2
      _ = (((⌊a⌋ + 1 : ℤ)) : ℚ) := by push_cast; ring
      _ ≤ (((⌊a⌋ / d + 1) * d : ℤ) : ℚ) := by exact_mod_cast h3
      _ = (((⌊a⌋ / d : ℤ) : ℚ) + 1) * (d : ℚ) := by push_cast; ring

/-- `formatTime` renders exactly the `HH:MM:SS` / `MM:SS` decomposition of
`⌊max 0 q⌋`. -/
theorem formatTime_eq (q : ℚ) :
    formatTime q =
      if 3600 ≤ (⌊max 0 q⌋).toNat then
        padStart2 (natToDecStr ((⌊max 0 q⌋).toNat / 3600)) ++ ':' ::
          (padStart2 (natToDecStr ((⌊max 0 q⌋).toNat % 3600 / 60)) ++ ':' ::
            padStart2 (natToDecStr ((⌊max 0 q⌋).toNat % 60)))
      else
        padStart2 (natToDecStr ((⌊max 0 q⌋).toNat % 3600 / 60)) ++ ':' ::
          padStart2 (natToDecStr ((⌊max 0 q⌋).toNat % 60)) := by
  unfold formatTime
  dsimp only
  have hx0 : (0 : ℚ) ≤ max 0 q := le_max_left 0 q
  set x := max 0 q with hxdef
  have hN0 : (0 : ℤ) ≤ ⌊x⌋ := Int.floor_nonneg.mpr hx0
  set N : ℤ := ⌊x⌋ with hNdef
  have hours_eq : ⌊x / 3600⌋ = N / 3600 := by
    have h := floor_div_pos_int x 3600 (by norm_num)
    push_cast at h
    rw [h]
  have trunc1 : jsTrunc (x / 3600) = N / 3600 := by
    rw [jsTrunc, if_pos (by positivity), hours_eq]
  have hmod1 : jsMod x 3600 = x - ((3600 * (N / 3600) : ℤ) : ℚ) := by
    rw [jsMod, trunc1]
    push_cast
    ring
  have hfloor_sub1 : ⌊jsMod x 3600⌋ = N % 3600 := by
    rw [hmod1, Int.floor_sub_int]
    omega
  have mins_eq : ⌊jsMod x 3600 / 60⌋ = N % 3600 / 60 := by
    have h := floor_div_pos_int (jsMod x 3600) 60 (by norm_num)
    push_cast at h
    rw [h, hfloor_sub1]
  have trunc60 : jsTrunc (x / 60) = N / 60 := by
    have h := floor_div_pos_int x 60 (by norm_num)
    push_cast at h
    rw [jsTrunc, if_pos (by positivity), h]
  have secs_eq : ⌊jsMod x 60⌋ = N % 60 := by
    rw [jsMod, trunc60, show (60 : ℚ) * ((N / 60 : ℤ) : ℚ) =
      (((60 * (N / 60) : ℤ)) : ℚ) by push_cast; ring, Int.floor_sub_int]
    omega
  rw [hours_eq, mins_eq, secs_eq,
    show (N / 3600).toNat = N.toNat / 3600 by omega,
    show (N % 3600 / 60).toNat = N.toNat % 3600 / 60 by omega,
    show (N % 60).toNat = N.toNat % 60 by omega]
  by_cases hcase : 3600 ≤ N.toNat
  · rw [if_pos (by omega), if_pos hcase]
    simp [List.append_assoc, List.cons_append]
  · rw [if_neg (by omega), if_neg hcase]

/-- Parsing a rendered clock string recovers the floor of the (clamped)
seconds value. -/
theorem timeToSeconds_formatTime (q : ℚ) :
    timeToSeconds (formatTime q) = JSNum.num ((⌊max 0 q⌋ : ℤ) : ℚ) := by
  rw [formatTime_eq]
  have h0 : (0 : ℤ) ≤ ⌊max 0 q⌋ := Int.floor_nonneg.mpr (le_max_left 0 q)
  set n := (⌊max 0 q⌋).toNat with hn
  have hcast : ((⌊max 0 q⌋ : ℤ) : ℚ) = (n : ℚ) := by
    have : ⌊max 0 q⌋ = (n : ℤ) := by omega
    exact_mod_cast congrArg (fun z : ℤ => (z : ℚ)) this
  rw [hcast]
  by_cases hc : 3600 ≤ n
  · rw [if_pos hc,
      timeToSeconds_eval3 (padStart2_digits (natToDecStr_digits _))
        (padStart2_digits (natToDecStr_digits _)) (padStart2_digits (natToDecStr_digits _))
        (padStart2_ne_nil (natToDecStr_ne_nil _)) (padStart2_ne_nil (natToDecStr_ne_nil _))
        (padStart2_ne_nil (natToDecStr_ne_nil _)),
      decVal_padStart2, decVal_padStart2, decVal_padStart2,
      decVal_natToDecStr, decVal_natToDecStr, decVal_natToDecStr]
    congr 1
    exact_mod_cast (show n % 60 + n % 3600 / 60 * 60 + n / 3600 * 3600 = n by omega)
  · rw [if_neg hc,
      timeToSeconds_eval2 (padStart2_digits (natToDecStr_digits _))
        (padStart2_digits (natToDecStr_digits _))
        (padStart2_ne_nil (natToDecStr_ne_nil _)) (padStart2_ne_nil (natToDecStr_ne_nil _)),
      decVal_padStart2, decVal_padStart2, decVal_natToDecStr, decVal_natToDecStr]
    congr 1
    exact_mod_cast (show n % 60 + n % 3600 / 60 * 60 = n by omega)

/-! ### NaN propagation in `timeToSeconds` -/

theorem jadd_nan_right (a : JSNum) : jadd a JSNum.nan = JSNum.nan := by
  cases a <;> rfl

theorem reduceParts_nan_total (ps : List JSNum) : ∀ i, reduceParts ps i JSNum.nan = JSNum.nan := by
  induction ps with
  | nil => intro i; rfl
  | cons p ps ih =>
    intro i
    simp only [reduceParts, jadd]
    exact ih (i + 1)

theorem reduceParts_nan_mem (ps : List JSNum) :
    ∀ i total, JSNum.nan ∈ ps → reduceParts ps i total = JSNum.nan := by
  induction ps with
  | nil => intro i total h; simp at h
  | cons p ps ih =>
    intro i total h
    rcases List.mem_cons.mp h with h | h
    · subst h
      simp only [reduceParts, jmul, jadd_nan_right]
      exact reduceParts_nan_total ps (i + 1)
    · simp only [reduceParts]
      exact ih (i + 1) _ h

/-! ### Claim theorems -/

/-- **C5** (confirmed).  For every `x ≥ 0`, converting seconds to a clock
string with `formatTime` and parsing it back with `timeToSeconds` loses only
the fractional part: the result is `⌊x⌋`. -/
theorem c5_roundtrip_floor (x : ℚ) (hx : 0 ≤ x) :
    timeToSeconds (formatTime x) = JSNum.num ((⌊x⌋ : ℤ) : ℚ) := by
  rw [timeToSeconds_formatTime, max_eq_right hx]

theorem c5_roundtrip_floor_witness :
    (0 : ℚ) ≤ 7 / 2 ∧ timeToSeconds (formatTime (7 / 2)) = JSNum.num 3 := by
  refine ⟨by norm_num, ?_⟩
  rw [c5_roundtrip_floor (7 / 2) (by norm_num)]
  norm_num

/-- **C2** (corrected), counterexample: on the malformed clock string
`"ab:cd"` the conversion returns `NaN`, not `0`. -/
theorem c2_counterexample :
    timeToSeconds "ab:cd".data = JSNum.nan ∧ timeToSeconds "ab:cd".data ≠ JSNum.num 0 := by
  decide

/-- **C2** (corrected, amended).  A clock string with a field that `Number`
cannot parse yields `NaN` (the `NaN` propagates through the fold), not `0`. -/
theorem c2_malformed_is_nan (cs : Str)
    (h : ∃ p ∈ splitOnChar ':' cs, jsNumber p = JSNum.nan) :
    timeToSeconds cs = JSNum.nan := by
  obtain ⟨p, hp, hnan⟩ := h
  unfold timeToSeconds
  apply reduceParts_nan_mem
  rw [List.mem_reverse, List.mem_map]
  exact ⟨p, hp, hnan⟩

theorem c2_malformed_is_nan_witness :
    (∃ p ∈ splitOnChar ':' "ab:cd".data, jsNumber p = JSNum.nan) ∧
      timeToSeconds "ab:cd".data = JSNum.nan :=
  ⟨by decide, c2_malformed_is_nan "ab:cd".data (by decide)⟩

/-- **C10** (confirmed).  With an empty stored segment list the time-update
effect returns before computing an active index: whatever the previous
`activeSegmentIndex` and `lastActiveIndex` were, the state is unchanged and
no update is emitted. -/
theorem c10_empty_segments_noop (lo : Bool) (er : Option Str) (ai : Int)
    (lp : Option (List (Option ℚ × Option ℚ × Str))) (la : Int) (t : ℚ) :
    timeUpdate ⟨[], lo, er, ai, lp, la⟩ t = (⟨[], lo, er, ai, lp, la⟩, false) := by
  rfl

/-- **C7** (confirmed).  For a fixed non-empty segment list, two consecutive
time updates whose active-segment computations agree cause no second state
update: the second call returns the first call's state unchanged with no
notification. -/
theorem c7_no_redundant_update (st : CState) (t1 t2 : ℚ)
    (hne : st.formattedSegments ≠ [])
    (heq : findActive st.formattedSegments t1 = findActive st.formattedSegments t2) :
    timeUpdate (timeUpdate st t1).1 t2 = ((timeUpdate st t1).1, false) := by
  unfold timeUpdate
  simp only [if_neg hne]
  by_cases hchg : findActive st.formattedSegments t1 ≠ st.lastActiveIndex
  · simp only [if_pos hchg]
    simp only [if_neg hne, ← heq]
    simp
  · simp only [if_neg hchg]
    simp only [if_neg hne, ← heq]
    simp only [hchg]
    push_neg at hchg
    simp [hchg]

theorem c7_no_redundant_update_witness :
    (([⟨['a'], ['z', 'z']⟩] : List TranscriptSegment) ≠ [] ∧
      findActive [⟨['a'], ['z', 'z']⟩] 1 = findActive [⟨['a'], ['z', 'z']⟩] 2) ∧
      timeUpdate (timeUpdate ⟨[⟨['a'], ['z', 'z']⟩], false, none, -1, none, -1⟩ 1).1 2 =
        ((timeUpdate ⟨[⟨['a'], ['z', 'z']⟩], false, none, -1, none, -1⟩ 1).1, false) :=
  ⟨⟨by decide, by decide⟩,
    c7_no_redundant_update ⟨[⟨['a'], ['z', 'z']⟩], false, none, -1, none, -1⟩ 1 2
      (by decide) (by decide)⟩

/-- **C3** (confirmed).  Reprocessing is idempotent on the fingerprint: a
second `processTranscript` call whose token list has the same
`(start, end, text)` triples in the same order hits the fingerprint cache —
it performs no segmentation (`cacheHit`, not `segmented`) and returns the
state exactly as the first call left it. -/
theorem c3_reprocess_cache_hit (st : CState) (ws1 ws2 : List Word)
    (h1 : ws1 ≠ []) (hfp : fingerprint ws1 = fingerprint ws2) :
    processTranscript (processTranscript st ws1).1 ws2 =
      ((processTranscript st ws1).1, PAction.cacheHit) := by
  have h2 : ws2 ≠ [] := by
    intro hc
    subst hc
    simp only [fingerprint, List.map_nil, List.map_eq_nil_iff] at hfp
    exact h1 hfp
  unfold processTranscript
  simp only [if_neg h1]
  by_cases hcache : st.lastProcessedId = some (fingerprint ws1)
  · simp only [if_pos hcache]
    simp only [if_neg h2, ← hfp, if_pos hcache]
  · simp only [if_neg hcache]
    simp only [if_neg h2, ← hfp]
    simp

theorem c3_reprocess_cache_hit_witness :
    (([⟨['h', 'i'], some 1, some 2, none, none⟩] : List Word) ≠ [] ∧
      fingerprint [⟨['h', 'i'], some 1, some 2, none, none⟩] =
        fingerprint [⟨['h', 'i'], some 1, some 2, none, none⟩]) ∧
      processTranscript
          (processTranscript ⟨[], true, none, -1, none, -1⟩
            [⟨['h', 'i'], some 1, some 2, none, none⟩]).1
          [⟨['h', 'i'], some 1, some 2, none, none⟩] =
        ((processTranscript ⟨[], true, none, -1, none, -1⟩
            [⟨['h', 'i'], some 1, some 2, none, none⟩]).1, PAction.cacheHit) :=
  ⟨⟨by decide, rfl⟩,
    c3_reprocess_cache_hit ⟨[], true, none, -1, none, -1⟩ _ _ (by decide) rfl⟩

/-! ### The C1 end-to-end scenario -/

/-- The four tokens of the end-to-end scenario. -/
def c1words : List Word :=
  [⟨"Hello".data, some 0, some 0.5, none, none⟩,
   ⟨"world.".data, some 0.6, some 1, none, none⟩,
   ⟨"Next".data, some 5, some 5.3, none, none⟩,
   ⟨"topic.".data, some 5.4, some 5.8, none, none⟩]

theorem formatTime_zero : formatTime 0 = "00:00".data := by
  rw [formatTime_eq]
  norm_num
  decide

theorem formatTime_five : formatTime 5 = "00:05".data := by
  rw [formatTime_eq]
  norm_num
  decide

/-- Evaluation of `formatTranscript` on the scenario tokens: the long pause
between `world.` (end 1.0) and `Next` (start 5.0) splits the transcript into
two segments; their start times render as `MM:SS` strings. -/
theorem formatTranscript_c1words :
    formatTranscript c1words =
      [⟨"Hello world.".data, "00:00".data⟩, ⟨"Next topic.".data, "00:05".data⟩] := by
  simp only [formatTranscript, c1words, ftLoop]
  norm_num [isLongPauseB, wordStartVal, wordEndVal, pushSegment]
  simp only [formatTime_zero, formatTime_five]
  decide

/-- **C1** (corrected), counterexample: the scenario does not produce
`startTime` values `"00:00:00"` and `"00:00:05"` — sub-hour times are
rendered `MM:SS`. -/
theorem c1_counterexample :
    formatTranscript c1words ≠
      [⟨"Hello world.".data, "00:00:00".data⟩, ⟨"Next topic.".data, "00:00:05".data⟩] := by
  rw [formatTranscript_c1words]
  decide

/-- **C1** (corrected, amended).  The scenario yields exactly two segments
with texts `"Hello world."` and `"Next topic."`, but with start times
`"00:00"` and `"00:05"` (`formatTime` uses `MM:SS` below one hour). -/
theorem c1_scenario :
    formatTranscript c1words =
      [⟨"Hello world.".data, "00:00".data⟩, ⟨"Next topic.".data, "00:05".data⟩] :=
  formatTranscript_c1words

/-! ### Characterising the active-segment search -/

theorem findActiveGo_spec (segs : List TranscriptSegment) (t : ℚ) :
    ∀ rest k, k + rest.length = segs.length →
      (findActiveGo segs t k rest = -1 ∧
        (∀ i, k ≤ i → i < segs.length → activeCond segs t i = false)) ∨
      (∃ i : ℕ, findActiveGo segs t k rest = (i : Int) ∧ k ≤ i ∧ i < segs.length ∧
        activeCond segs t i = true ∧
        ∀ j, k ≤ j → j < i → activeCond segs t j = false) := by
  intro rest
  induction rest with
  | nil =>
    intro k hk
    left
    refine ⟨rfl, fun i hki hilen => absurd hilen (by simp at hk; omega)⟩
  | cons s rs ih =>
    intro k hk
    simp only [List.length_cons] at hk
    by_cases hc : activeCond segs t k = true
    · right
      exact ⟨k, by simp [findActiveGo, hc], le_refl k, by omega, hc,
        fun j hkj hjk => absurd (lt_of_le_of_lt hkj hjk) (lt_irrefl k)⟩
    · have hcf : activeCond segs t k = false := by
        cases hcc : activeCond segs t k
        · rfl
        · exact absurd hcc hc
      have hgo : findActiveGo segs t k (s :: rs) = findActiveGo segs t (k + 1) rs := by
        simp [findActiveGo, hcf]
      rcases ih (k + 1) (by omega) with ⟨heq, hall⟩ | ⟨i, heq, hki, hilen, hcond, hmin⟩
      · left
        refine ⟨by rw [hgo, heq], fun i hki hilen => ?_⟩
        rcases Nat.eq_or_lt_of_le hki with h | h
        · exact h ▸ hcf
        · exact hall i h hilen
      · right
        refine ⟨i, by rw [hgo, heq], by omega, hilen, hcond, fun j hkj hji => ?_⟩
        rcases Nat.eq_or_lt_of_le hkj with h | h
        · exact h ▸ hcf
        · exact hmin j h hji

/-- The search characterised at the top level. -/
theorem findActive_spec (segs : List TranscriptSegment) (t : ℚ) :
    (findActive segs t = -1 ∧ ∀ i, i < segs.length → activeCond segs t i = false) ∨
    (∃ i : ℕ, findActive segs t = (i : Int) ∧ i < segs.length ∧
      activeCond segs t i = true ∧ ∀ j, j < i → activeCond segs t j = false) := by
  rcases findActiveGo_spec segs t segs 0 (by simp) with ⟨heq, hall⟩ | ⟨i, heq, _, hilen, hcond, hmin⟩
  · exact Or.inl ⟨heq, fun i h => hall i (Nat.zero_le i) h⟩
  · exact Or.inr ⟨i, heq, hilen, hcond, fun j h => hmin j (Nat.zero_le j) h⟩

theorem neg_one_le_findActive (segs : List TranscriptSegment) (t : ℚ) :
    -1 ≤ findActive segs t := by
  rcases findActive_spec segs t with ⟨heq, _⟩ | ⟨i, heq, _, _, _⟩
  · omega
  · rw [heq]; omega

/-! ### Concrete clock strings -/

theorem tts_00_00_00 : timeToSeconds ['0', '0', ':', '0', '0', ':', '0', '0'] = JSNum.num 0 := by
  rw [show (['0', '0', ':', '0', '0', ':', '0', '0'] : Str) = "00".data ++ ':' :: ("00".data ++ ':' :: "00".data)
      from by decide,
    timeToSeconds_eval3 (by decide) (by decide) (by decide) (by decide) (by decide) (by decide)]
  norm_num [show decVal "00".data = 0 from by decide]

theorem tts_00_00_10 : timeToSeconds ['0', '0', ':', '0', '0', ':', '1', '0'] = JSNum.num 10 := by
  rw [show (['0', '0', ':', '0', '0', ':', '1', '0'] : Str) = "00".data ++ ':' :: ("00".data ++ ':' :: "10".data)
      from by decide,
    timeToSeconds_eval3 (by decide) (by decide) (by decide) (by decide) (by decide) (by decide)]
  norm_num [show decVal "00".data = 0 from by decide, show decVal "10".data = 10 from by decide]

theorem tts_00_00_20 : timeToSeconds ['0', '0', ':', '0', '0', ':', '2', '0'] = JSNum.num 20 := by
  rw [show (['0', '0', ':', '0', '0', ':', '2', '0'] : Str) = "00".data ++ ':' :: ("00".data ++ ':' :: "20".data)
      from by decide,
    timeToSeconds_eval3 (by decide) (by decide) (by decide) (by decide) (by decide) (by decide)]
  norm_num [show decVal "00".data = 0 from by decide, show decVal "20".data = 20 from by decide]

theorem tts_00_00 : timeToSeconds ['0', '0', ':', '0', '0'] = JSNum.num 0 := by
  rw [show (['0', '0', ':', '0', '0'] : Str) = "00".data ++ ':' :: "00".data from by decide,
    timeToSeconds_eval2 (by decide) (by decide) (by decide) (by decide)]
  norm_num [show decVal "00".data = 0 from by decide]

theorem tts_00_05 : timeToSeconds ['0', '0', ':', '0', '5'] = JSNum.num 5 := by
  rw [show (['0', '0', ':', '0', '5'] : Str) = "00".data ++ ':' :: "05".data from by decide,
    timeToSeconds_eval2 (by decide) (by decide) (by decide) (by decide)]
  norm_num [show decVal "00".data = 0 from by decide, show decVal "05".data = 5 from by decide]

theorem tts_01_40 : timeToSeconds ['0', '1', ':', '4', '0'] = JSNum.num 100 := by
  rw [show (['0', '1', ':', '4', '0'] : Str) = "01".data ++ ':' :: "40".data from by decide,
    timeToSeconds_eval2 (by decide) (by decide) (by decide) (by decide)]
  norm_num [show decVal "01".data = 1 from by decide, show decVal "40".data = 40 from by decide]

/-- The three boundary-case segments of the spec. -/
def demoSegs : List TranscriptSegment :=
  [⟨"a".data, "00:00:00".data⟩, ⟨"b".data, "00:00:10".data⟩, ⟨"c".data, "00:00:20".data⟩]

theorem findActive_demo_9999 : findActive demoSegs (9999 / 1000 : ℚ) = 0 := by
  simp only [findActive, demoSegs, findActiveGo, activeCond, List.getD_cons_zero,
    List.getD_cons_succ, List.length_cons, List.length_nil, tts_00_00_00, tts_00_00_10,
    tts_00_00_20]
  norm_num [jle, jlt]

theorem findActive_demo_10 : findActive demoSegs 10 = 1 := by
  simp only [findActive, demoSegs, findActiveGo, activeCond, List.getD_cons_zero,
    List.getD_cons_succ, List.length_cons, List.length_nil, tts_00_00_00, tts_00_00_10,
    tts_00_00_20]
  norm_num [jle, jlt]

theorem findActive_demo_25 : findActive demoSegs 25 = 2 := by
  simp only [findActive, demoSegs, findActiveGo, activeCond, List.getD_cons_zero,
    List.getD_cons_succ, List.length_cons, List.length_nil, tts_00_00_00, tts_00_00_10,
    tts_00_00_20]
  norm_num [jle, jlt]

theorem findActive_demo_neg : findActive demoSegs (-1) = -1 := by
  simp only [findActive, demoSegs, findActiveGo, activeCond, List.getD_cons_zero,
    List.getD_cons_succ, List.length_cons, List.length_nil, tts_00_00_00, tts_00_00_10,
    tts_00_00_20]
  norm_num [jle, jlt]

/-- **C4** (confirmed).  The active-segment search returns the smallest index
whose `[start, nextStart)` window (`Infinity` past the last segment, `NaN`
comparisons false) contains `t`, and the sentinel `-1` when no index
qualifies; on the spec's boundary segments it returns 0 at `t = 9.999`, 1 at
`t = 10`, 2 at `t = 25`, `-1` at `t = -1`, and on the empty list `-1` for
every `t`. -/
theorem c4_active_search :
    (∀ (segs : List TranscriptSegment) (t : ℚ) (i : ℕ), findActive segs t = (i : Int) →
      i < segs.length ∧ activeCond segs t i = true ∧
        ∀ j, j < i → activeCond segs t j = false) ∧
    (∀ (segs : List TranscriptSegment) (t : ℚ),
      findActive segs t = -1 ↔ ∀ i, i < segs.length → activeCond segs t i = false) ∧
    findActive demoSegs (9999 / 1000 : ℚ) = 0 ∧ findActive demoSegs 10 = 1 ∧
    findActive demoSegs 25 = 2 ∧ findActive demoSegs (-1) = -1 ∧
    (∀ t : ℚ, findActive [] t = -1) := by
  refine ⟨?_, ?_, findActive_demo_9999, findActive_demo_10, findActive_demo_25,
    findActive_demo_neg, fun t => rfl⟩
  · intro segs t i heq
    rcases findActive_spec segs t with ⟨h1, _⟩ | ⟨i', h1, hlen, hcond, hmin⟩
    · rw [h1] at heq
      omega
    · rw [h1] at heq
      have : i = i' := by omega
      subst this
      exact ⟨hlen, hcond, hmin⟩
  · intro segs t
    constructor
    · intro heq i hi
      rcases findActive_spec segs t with ⟨_, hall⟩ | ⟨i', h1, hlen, hcond, _⟩
      · exact hall i hi
      · rw [h1] at heq
        omega
    · intro hall
      rcases findActive_spec segs t with ⟨h1, _⟩ | ⟨i', h1, hlen, hcond, _⟩
      · exact h1
      · exact absurd hcond (by simp [hall i' hlen])

theorem c4_active_search_witness :
    activeCond demoSegs 25 2 = true ∧ ∀ j, j < 2 → activeCond demoSegs 25 j = false :=
  ⟨(c4_active_search.1 demoSegs 25 2 c4_active_search.2.2.2.2.1).2.1,
    (c4_active_search.1 demoSegs 25 2 c4_active_search.2.2.2.2.1).2.2⟩

/-! ### Monotonicity of the active search -/

/-- Segments whose start times are out of order. -/
def badSegs : List TranscriptSegment :=
  [⟨"a".data, "00:05".data⟩, ⟨"b".data, "01:40".data⟩, ⟨"c".data, "00:00".data⟩]

theorem findActive_bad_1 : findActive badSegs 1 = 2 := by
  simp only [findActive, badSegs, findActiveGo, activeCond, List.getD_cons_zero,
    List.getD_cons_succ, List.length_cons, List.length_nil, tts_00_05, tts_01_40, tts_00_00]
  norm_num [jle, jlt]

theorem findActive_bad_6 : findActive badSegs 6 = 0 := by
  simp only [findActive, badSegs, findActiveGo, activeCond, List.getD_cons_zero,
    List.getD_cons_succ, List.length_cons, List.length_nil, tts_00_05, tts_01_40, tts_00_00]
  norm_num [jle, jlt]

/-- **C9** (corrected), counterexample: with start times `[00:05, 01:40,
00:00]` the active index at `t = 1` is 2 but at the later `t = 6` it is 0 —
the search is not monotone on unsorted segment lists. -/
theorem c9_counterexample :
    (1 : ℚ) ≤ 6 ∧ findActive badSegs 1 = 2 ∧ findActive badSegs 6 = 0 ∧
      ¬(findActive badSegs 1 ≤ findActive badSegs 6) := by
  refine ⟨by norm_num, findActive_bad_1, findActive_bad_6, ?_⟩
  rw [findActive_bad_1, findActive_bad_6]
  omega

/-- **C9** (corrected, amended).  For a segment list whose start times parse
to a non-decreasing sequence of (finite) seconds — as those produced by
`formatTranscript` on ordered tokens do — the search is monotone in the
playback time, with `-1` below every valid index. -/
theorem c9_monotone_sorted (segs : List TranscriptSegment) (vals : List ℚ)
    (hv : segs.map (fun s => timeToSeconds s.startTime) = vals.map JSNum.num)
    (hsort : vals.Chain' (· ≤ ·)) (t1 t2 : ℚ) (ht : t1 ≤ t2) :
    findActive segs t1 ≤ findActive segs t2 := by
  have hlen : segs.length = vals.length := by
    have := congrArg List.length hv
    simpa using this
  have hval : ∀ i, i < segs.length →
      timeToSeconds ((segs.getD i default).startTime) = JSNum.num (vals.getD i 0) := by
    intro i h
    have h2 : i < vals.length := hlen ▸ h
    have e1 : (segs.map (fun s => timeToSeconds s.startTime)).getD i JSNum.nan =
        (vals.map JSNum.num).getD i JSNum.nan := by rw [hv]
    rw [List.getD_eq_getElem _ _ (by simpa using h), List.getD_eq_getElem _ _ (by simpa using h2),
      List.getElem_map, List.getElem_map] at e1
    rw [List.getD_eq_getElem _ _ h, List.getD_eq_getElem _ _ h2]
    exact e1
  have hpw := List.chain'_iff_pairwise.mp hsort
  have hple : ∀ i j, i ≤ j → j < vals.length → vals.getD i 0 ≤ vals.getD j 0 := by
    intro i j hij hj
    rcases Nat.eq_or_lt_of_le hij with h | h
    · subst h; exact le_refl _
    · rw [List.getD_eq_getElem _ _ (by omega), List.getD_eq_getElem _ _ hj]
      exact List.pairwise_iff_getElem.mp hpw i j (by omega) hj h
  have hcond_iff : ∀ (t : ℚ) i, i < segs.length →
      (activeCond segs t i = true ↔
        (vals.getD i 0 ≤ t ∧ (i < segs.length - 1 → t < vals.getD (i + 1) 0))) := by
    intro t i h
    unfold activeCond
    rw [hval i h]
    by_cases hlt : i < segs.length - 1
    · rw [if_pos hlt, hval (i + 1) (by omega)]
      simp only [jle, jlt, Bool.and_eq_true, decide_eq_true_eq]
      constructor
      · rintro ⟨ha, hb⟩; exact ⟨ha, fun _ => hb⟩
      · rintro ⟨ha, hb⟩; exact ⟨ha, hb hlt⟩
    · rw [if_neg hlt]
      simp only [jle, jlt, Bool.and_eq_true, decide_eq_true_eq]
      constructor
      · rintro ⟨ha, _⟩; exact ⟨ha, fun hc => absurd hc hlt⟩
      · rintro ⟨ha, _⟩; exact ⟨ha, trivial⟩
  rcases findActive_spec segs t1 with ⟨h1, _⟩ | ⟨j, h1, hjlen, hcondj, hminj⟩
  · rw [h1]
    exact neg_one_le_findActive segs t2
  · have hj1 : vals.getD j 0 ≤ t1 := ((hcond_iff t1 j hjlen).mp hcondj).1
    have hA : ∀ k, k < j → activeCond segs t2 k = false := by
      intro k hk
      by_contra hc
      have hct : activeCond segs t2 k = true := by
        cases hcc : activeCond segs t2 k
        · exact absurd hcc hc
        · rfl
      obtain ⟨hk1, hk2⟩ := (hcond_iff t2 k (by omega)).mp hct
      have hklt : k < segs.length - 1 := by omega
      have ht2lt : t2 < vals.getD (k + 1) 0 := hk2 hklt
      have hle2 : vals.getD (k + 1) 0 ≤ vals.getD j 0 :=
        hple (k + 1) j (by omega) (by omega)
      linarith
    have hB : ∃ m, m < segs.length ∧ activeCond segs t2 m = true := by
      classical
      set P : ℕ → Prop := fun i => vals.getD i 0 ≤ t2 with hP
      have hPj : P j := le_trans hj1 ht
      have hjle : j ≤ segs.length - 1 := by omega
      set m := Nat.findGreatest P (segs.length - 1) with hm
      have hmge : j ≤ m := Nat.le_findGreatest hjle hPj
      have hPm : P m := Nat.findGreatest_spec hjle hPj
      have hmle : m ≤ segs.length - 1 := Nat.findGreatest_le _
      refine ⟨m, by omega, (hcond_iff t2 m (by omega)).mpr ⟨hPm, fun hmlt => ?_⟩⟩
      by_contra hc
      push_neg at hc
      have hP1 : P (m + 1) := hc
      have h1 : Nat.findGreatest P (segs.length - 1) < m + 1 := by rw [← hm]; omega
      exact Nat.findGreatest_is_greatest h1 (by omega) hP1
    rcases findActive_spec segs t2 with ⟨h2, hall⟩ | ⟨i, h2, hilen, hcondi, hmini⟩
    · obtain ⟨m, hmlen, hmcond⟩ := hB
      exact absurd hmcond (by simp [hall m hmlen])
    · have hige : j ≤ i := by
        by_contra hc
        push_neg at hc
        exact absurd hcondi (by simp [hA i hc])
      rw [h1, h2]
      exact_mod_cast hige

theorem c9_monotone_sorted_witness :
    (demoSegs.map (fun s => timeToSeconds s.startTime) =
        ([0, 10, 20] : List ℚ).map JSNum.num ∧
      ([0, 10, 20] : List ℚ).Chain' (· ≤ ·) ∧ (1 : ℚ) ≤ 2) ∧
      findActive demoSegs 1 ≤ findActive demoSegs 2 :=
  ⟨⟨by simp [demoSegs, tts_00_00_00, tts_00_00_10, tts_00_00_20],
      by norm_num [List.chain'_cons, List.chain'_singleton], by norm_num⟩,
    c9_monotone_sorted demoSegs [0, 10, 20]
      (by simp [demoSegs, tts_00_00_00, tts_00_00_10, tts_00_00_20])
      (by norm_num [List.chain'_cons, List.chain'_singleton]) 1 2 (by norm_num)⟩

/-! ### Invariants of `formatTranscript` -/

/-- Ordering of parsed start times, as the segment chain relation. -/
def segLE (a b : TranscriptSegment) : Prop :=
  jle (timeToSeconds a.startTime) (timeToSeconds b.startTime) = true

theorem jle_num_trans {x : JSNum} {a b : ℚ} (h : jle x (JSNum.num a) = true)
    (hab : a ≤ b) : jle x (JSNum.num b) = true := by
  cases x with
  | nan => simp [jle] at h
  | inf => simp [jle] at h
  | num v =>
    simp only [jle, decide_eq_true_eq] at h ⊢
    linarith

theorem jle_formatTime {a b : ℚ} (h : a ≤ b) :
    jle (timeToSeconds (formatTime a)) (timeToSeconds (formatTime b)) = true := by
  rw [timeToSeconds_formatTime, timeToSeconds_formatTime]
  simp only [jle, decide_eq_true_eq]
  have : ⌊max 0 a⌋ ≤ ⌊max 0 b⌋ := Int.floor_le_floor (max_le_max (le_refl 0) h)
  exact_mod_cast this

/-- The three-part invariant carried through the `formatTranscript` loop. -/
def segsInv (segs : List TranscriptSegment) (q : ℚ) : Prop :=
  (∀ s ∈ segs, s.text ≠ []) ∧ segs.Chain' segLE ∧
    (∀ s ∈ segs, jle (timeToSeconds s.startTime) (timeToSeconds (formatTime q)) = true)

theorem segsInv_mono {segs : List TranscriptSegment} {q q' : ℚ}
    (h : segsInv segs q) (hq : q ≤ q') : segsInv segs q' := by
  obtain ⟨h1, h2, h3⟩ := h
  refine ⟨h1, h2, fun s hs => ?_⟩
  have hb := h3 s hs
  rw [timeToSeconds_formatTime] at hb ⊢
  exact jle_num_trans hb (by
    exact_mod_cast Int.floor_le_floor (max_le_max (le_refl 0) hq))

theorem pushSegment_inv {segs : List TranscriptSegment} {q : ℚ} (cur : List Str)
    (h : segsInv segs q) : segsInv (pushSegment segs cur q) q := by
  obtain ⟨h1, h2, h3⟩ := h
  unfold pushSegment
  by_cases hc : cleanText (List.intercalate [' '] cur) ≠ []
  · simp only [if_pos hc]
    refine ⟨?_, ?_, ?_⟩
    · intro s hs
      rcases List.mem_append.mp hs with hs | hs
      · exact h1 s hs
      · rw [List.mem_singleton.mp hs]
        exact hc
    · rw [List.chain'_append]
      refine ⟨h2, List.chain'_singleton _, fun x hx y hy => ?_⟩
      rw [List.head?_cons, Option.mem_some_iff] at hy
      subst hy
      exact h3 x (List.mem_of_mem_getLast? hx)
    · intro s hs
      rcases List.mem_append.mp hs with hs | hs
      · exact h3 s hs
      · rw [List.mem_singleton.mp hs]
        exact jle_formatTime (le_refl q)
  · simp only [if_neg hc]
    exact ⟨h1, h2, h3⟩

theorem ftLoop_inv (ws : List Word) :
    ∀ (i : ℕ) (prev : Option Word) (cur : List Str) (q : ℚ)
      (segs : List TranscriptSegment),
      (ws.map wordStartVal).Pairwise (· ≤ ·) →
      (∀ w ∈ ws, q ≤ wordStartVal w) →
      segsInv segs q →
      (∀ s ∈ ftLoop ws i prev cur q segs, s.text ≠ []) ∧
        (ftLoop ws i prev cur q segs).Chain' segLE := by
  induction ws with
  | nil =>
    intro i prev cur q segs hsort hge hinv
    simp only [ftLoop]
    by_cases hc : cur ≠ []
    · simp only [if_pos hc]
      obtain ⟨h1, h2, _⟩ := pushSegment_inv cur hinv
      exact ⟨h1, h2⟩
    · simp only [if_neg hc]
      exact ⟨hinv.1, hinv.2.1⟩
  | cons w ws ih =>
    intro i prev cur q segs hsort hge hinv
    simp only [List.map_cons, List.pairwise_cons] at hsort
    obtain ⟨hhead, htail⟩ := hsort
    simp only [ftLoop]
    by_cases hskip : trimJs w.text = []
    · simp only [if_pos hskip]
      exact ih (i + 1) (some w) cur q segs htail
        (fun w' hw' => hge w' (List.mem_cons_of_mem w hw')) hinv
    · simp only [if_neg hskip]
      by_cases hflush : ((isLongPauseB prev w || i == 0) && decide (cur ≠ [])) = true
      · rw [if_pos hflush]
        have hq' : q ≤ wordStartVal w := hge w (List.mem_cons_self w ws)
        apply ih (i + 1) (some w) [trimJs w.text] (wordStartVal w)
          (pushSegment segs cur q) htail
        · intro w' hw'
          exact hhead (wordStartVal w') (List.mem_map.mpr ⟨w', hw', rfl⟩)
        · exact segsInv_mono (pushSegment_inv cur hinv) hq'
      · rw [if_neg hflush]
        exact ih (i + 1) (some w) (cur ++ [trimJs w.text]) q segs htail
          (fun w' hw' => hge w' (List.mem_cons_of_mem w hw')) hinv

/-- **C6** (confirmed).  On a token list with non-decreasing start times
(missing starts counting as 0, as in `word.start || 0`), every emitted
segment has non-empty cleaned text, and the emitted `startTime` values,
parsed back to seconds, are non-decreasing. -/
theorem c6_segments_invariant (words : List Word)
    (hsort : (words.map wordStartVal).Chain' (· ≤ ·)) :
    (∀ s ∈ formatTranscript words, s.text ≠ []) ∧
      (formatTranscript words).Chain' segLE := by
  cases words with
  | nil => exact ⟨by simp [formatTranscript], by simp [formatTranscript]⟩
  | cons w ws =>
    have hpw : ((w :: ws).map wordStartVal).Pairwise (· ≤ ·) :=
      List.chain'_iff_pairwise.mp hsort
    have hge : ∀ w' ∈ w :: ws, wordStartVal w ≤ wordStartVal w' := by
      intro w' hw'
      rcases List.mem_cons.mp hw' with h | h
      · rw [h]
      · simp only [List.map_cons, List.pairwise_cons] at hpw
        exact hpw.1 (wordStartVal w') (List.mem_map.mpr ⟨w', h, rfl⟩)
    exact ftLoop_inv (w :: ws) 0 none [] (wordStartVal w) [] hpw hge
      ⟨by simp, List.chain'_nil, by simp⟩

theorem c6_segments_invariant_witness :
    (([⟨"Hi.".data, some 0, some 1, none, none⟩,
        ⟨"Yo".data, some 9, some 10, none, none⟩] : List Word).map wordStartVal).Chain'
        (· ≤ ·) ∧
      ((∀ s ∈ formatTranscript [⟨"Hi.".data, some 0, some 1, none, none⟩,
          ⟨"Yo".data, some 9, some 10, none, none⟩], s.text ≠ []) ∧
        (formatTranscript [⟨"Hi.".data, some 0, some 1, none, none⟩,
          ⟨"Yo".data, some 9, some 10, none, none⟩]).Chain' segLE) :=
  ⟨by norm_num [wordStartVal, List.chain'_cons, List.chain'_singleton],
    c6_segments_invariant _
      (by norm_num [wordStartVal, List.chain'_cons, List.chain'_singleton])⟩

/-! ### Idempotence of `cleanText` -/

/-- All whitespace characters are the plain space. -/
def wsA (l : Str) : Prop := ∀ c ∈ l, isJsWs c = true → c = ' '

/-- No two adjacent whitespace characters. -/
def wsB (l : Str) : Prop := l.Chain' fun a b => isJsWs a = true → isJsWs b = false

/-- No whitespace immediately before punctuation. -/
def wsP (l : Str) : Prop := l.Chain' fun a b => isJsWs a = true → isPunct b = false

/-- The first character is not whitespace. -/
def headOkWs (l : Str) : Prop := ∀ c ∈ l.head?, isJsWs c = false

/-- The last character is not whitespace. -/
def lastOkWs (l : Str) : Prop := ∀ c ∈ l.getLast?, isJsWs c = false

theorem punct_not_ws {c : Char} (h : isPunct c = true) : isJsWs c = false := by
  simp only [isPunct, Bool.or_eq_true, beq_iff_eq] at h
  rcases h with ((h | h) | h) | h <;> (subst h; decide)

theorem space_is_ws : isJsWs ' ' = true := by decide

theorem space_not_punct : isPunct ' ' = false := by decide

/-! #### `collapseGo` facts -/

theorem collapseGo_wsA (l : Str) : ∀ b, wsA (collapseGo b l) := by
  induction l with
  | nil => intro b; simp [collapseGo, wsA]
  | cons c cs ih =>
    intro b
    simp only [collapseGo]
    by_cases hws : isJsWs c = true
    · rw [if_pos hws]
      by_cases hb : b = true
      · simpa [hb] using ih true
      · rw [if_neg hb]
        intro d hd hdws
        rcases List.mem_cons.mp hd with h | h
        · exact h
        · exact ih true d h hdws
    · rw [if_neg hws]
      intro d hd hdws
      rcases List.mem_cons.mp hd with h | h
      · exact absurd (h ▸ hdws) (by simpa using hws)
      · exact ih false d h hdws

theorem collapseGo_true_head (l : Str) :
    ∀ c ∈ (collapseGo true l).head?, isJsWs c = false := by
  induction l with
  | nil => simp [collapseGo]
  | cons c cs ih =>
    simp only [collapseGo]
    by_cases hws : isJsWs c = true
    · rw [if_pos hws, if_pos trivial]
      exact ih
    · rw [if_neg hws]
      intro d hd
      rw [List.head?_cons, Option.mem_some_iff] at hd
      subst hd
      simpa using hws

theorem collapseGo_wsB (l : Str) : ∀ b, wsB (collapseGo b l) := by
  induction l with
  | nil => intro b; simp [collapseGo, wsB]
  | cons c cs ih =>
    intro b
    simp only [collapseGo]
    by_cases hws : isJsWs c = true
    · rw [if_pos hws]
      by_cases hb : b = true
      · simpa [hb] using ih true
      · rw [if_neg hb]
        rw [wsB, List.chain'_cons']
        exact ⟨fun d hd _ => collapseGo_true_head cs d hd, ih true⟩
    · rw [if_neg hws]
      rw [wsB, List.chain'_cons']
      exact ⟨fun d hd hc => absurd hc (by simpa using hws), ih false⟩

theorem collapseWs_wsA (l : Str) : wsA (collapseWs l) := collapseGo_wsA l false

theorem collapseWs_wsB (l : Str) : wsB (collapseWs l) := collapseGo_wsB l false

/-- On an already collapsed string the scanner is the identity. -/
theorem collapseGo_fix (l : Str) (ha : wsA l) (hb : wsB l) :
    collapseGo false l = l ∧ (headOkWs l → collapseGo true l = l) := by
  induction l with
  | nil => exact ⟨rfl, fun _ => rfl⟩
  | cons c cs ih =>
    have hacs : wsA cs := fun d hd => ha d (List.mem_cons_of_mem c hd)
    have hbcs : wsB cs := List.Chain'.tail hb
    obtain ⟨ihf, iht⟩ := ih hacs hbcs
    constructor
    · simp only [collapseGo]
      by_cases hws : isJsWs c = true
      · rw [if_pos hws, if_neg (by simp)]
        have hcs_head : headOkWs cs := by
          intro d hd
          cases cs with
          | nil => simp at hd
          | cons e es =>
            rw [List.head?_cons, Option.mem_some_iff] at hd
            subst hd
            have := List.chain'_cons.mp hb
            exact this.1 hws
        rw [iht hcs_head, ha c (List.mem_cons_self c cs) hws]
      · rw [if_neg hws, ihf]
    · intro hhead
      have hcws : isJsWs c = false := hhead c (by simp)
      simp only [collapseGo, if_neg (by simp [hcws] : ¬isJsWs c = true), ihf]

/-! #### `trimJs` facts -/

theorem chain'_dropWhile {R : Char → Char → Prop} {l : Str} (p : Char → Bool)
    (h : l.Chain' R) : (l.dropWhile p).Chain' R := by
  induction l with
  | nil => simp [List.dropWhile]
  | cons c cs ih =>
    rw [List.dropWhile_cons]
    by_cases hp : p c = true
    · rw [if_pos hp]
      exact ih (List.Chain'.tail h)
    · rw [if_neg hp]
      exact h

theorem dropWhile_head {p : Char → Bool} {l : Str} :
    ∀ c ∈ (l.dropWhile p).head?, p c = false := by
  induction l with
  | nil => simp [List.dropWhile]
  | cons c cs ih =>
    rw [List.dropWhile_cons]
    by_cases hp : p c = true
    · rw [if_pos hp]
      exact ih
    · rw [if_neg hp]
      intro d hd
      rw [List.head?_cons, Option.mem_some_iff] at hd
      subst hd
      simpa using hp

theorem dropWhile_getLast {p : Char → Bool} {l : Str}
    (h : l.dropWhile p ≠ []) : (l.dropWhile p).getLast? = l.getLast? := by
  induction l with
  | nil => simp [List.dropWhile]
  | cons c cs ih =>
    rw [List.dropWhile_cons] at h ⊢
    by_cases hp : p c = true
    · rw [if_pos hp] at h ⊢
      have hcs : cs ≠ [] := by
        intro hcc
        subst hcc
        simp [List.dropWhile] at h
      rw [ih h]
      cases cs with
      | nil => exact absurd rfl hcs
      | cons e es => rw [List.getLast?_cons_cons]
    · rw [if_neg hp]

theorem mem_dropWhile {p : Char → Bool} {l : Str} {c : Char}
    (h : c ∈ l.dropWhile p) : c ∈ l :=
  (List.dropWhile_sublist p).mem h

theorem trimJs_wsA {l : Str} (h : wsA l) : wsA (trimJs l) := by
  intro c hc hws
  unfold trimJs at hc
  rw [List.mem_reverse] at hc
  have hc2 := mem_dropWhile hc
  rw [List.mem_reverse] at hc2
  exact h c (mem_dropWhile hc2) hws

theorem trimJs_wsB {l : Str} (h : wsB l) : wsB (trimJs l) := by
  unfold trimJs
  rw [wsB, List.chain'_reverse]
  apply chain'_dropWhile
  rw [List.chain'_reverse]
  exact List.Chain'.imp (fun a b hab => hab) (chain'_dropWhile isJsWs h)

theorem trimJs_headOk (l : Str) : headOkWs (trimJs l) := by
  intro c hc
  unfold trimJs at hc
  rw [List.head?_reverse] at hc
  have hne : (l.dropWhile isJsWs).reverse.dropWhile isJsWs ≠ [] := by
    intro hcc
    rw [hcc] at hc
    simp at hc
  rw [dropWhile_getLast hne, List.getLast?_reverse] at hc
  exact dropWhile_head c hc

theorem trimJs_lastOk (l : Str) : lastOkWs (trimJs l) := by
  intro c hc
  unfold trimJs at hc
  rw [List.getLast?_reverse] at hc
  exact dropWhile_head c hc

theorem dropWhile_eq_self_of_headOk {p : Char → Bool} {l : Str}
    (h : ∀ c ∈ l.head?, p c = false) : l.dropWhile p = l := by
  cases l with
  | nil => rfl
  | cons c cs =>
    rw [List.dropWhile_cons]
    simp [h c (by simp)]

theorem trimJs_fix {l : Str} (hh : headOkWs l) (hl : lastOkWs l) : trimJs l = l := by
  unfold trimJs
  rw [dropWhile_eq_self_of_headOk hh, dropWhile_eq_self_of_headOk, List.reverse_reverse]
  intro c hc
  rw [List.head?_reverse] at hc
  exact hl c hc

theorem getLast_cons_ne_nil {c : Char} {cs : Str} (h : cs ≠ []) :
    (c :: cs).getLast? = cs.getLast? := by
  cases cs with
  | nil => exact absurd rfl h
  | cons e es => rw [List.getLast?_cons_cons]

/-! #### `rmGo` facts -/

theorem rmGo_nil (pending : Str) : rmGo pending [] = pending := rfl

theorem rmGo_cons_not_ws {c : Char} (l : Str) (hc : isJsWs c = false) :
    rmGo [] (c :: l) = c :: rmGo [] l := by
  simp only [rmGo, hc, Bool.false_eq_true, if_false]
  by_cases hp : isPunct c = true
  · simp [hp]
  · simp [hp]

theorem rmGo_cons_ws (pending : Str) {c : Char} (l : Str) (hc : isJsWs c = true) :
    rmGo pending (c :: l) = rmGo (pending ++ [c]) l := by
  simp [rmGo, hc]

theorem rmGo_pend_punct {a d : Char} (l : Str) (hd1 : isJsWs d = false)
    (hd2 : isPunct d = true) : rmGo [a] (d :: l) = d :: rmGo [] l := by
  simp [rmGo, hd1, hd2]

theorem rmGo_pend_not_punct {a d : Char} (l : Str) (hd1 : isJsWs d = false)
    (hd2 : isPunct d = false) : rmGo [a] (d :: l) = a :: d :: rmGo [] l := by
  simp [rmGo, hd1, hd2]

theorem rmGo_ne_nil (pending : Str) (l : Str) (h : pending ≠ [] ∨ l ≠ []) :
    rmGo pending l ≠ [] := by
  induction l generalizing pending with
  | nil =>
    rcases h with h | h
    · simpa [rmGo_nil] using h
    · exact absurd rfl h
  | cons c cs ih =>
    simp only [rmGo]
    by_cases hws : isJsWs c = true
    · rw [if_pos hws]
      exact ih (pending ++ [c]) (Or.inl (by simp))
    · rw [if_neg hws]
      by_cases hp : (isPunct c && !(pending == [])) = true
      · rw [if_pos hp]
        simp
      · rw [if_neg hp]
        simp

theorem mem_rmGo {c : Char} : ∀ (l pending : Str), c ∈ rmGo pending l →
    c ∈ pending ∨ c ∈ l := by
  intro l
  induction l with
  | nil => intro pending h; exact Or.inl (by simpa [rmGo_nil] using h)
  | cons d ds ih =>
    intro pending h
    simp only [rmGo] at h
    by_cases hws : isJsWs d = true
    · rw [if_pos hws] at h
      rcases ih (pending ++ [d]) h with h2 | h2
      · rcases List.mem_append.mp h2 with h3 | h3
        · exact Or.inl h3
        · exact Or.inr (List.mem_cons.mpr (Or.inl (List.mem_singleton.mp h3)))
      · exact Or.inr (List.mem_cons_of_mem d h2)
    · rw [if_neg hws] at h
      by_cases hp : (isPunct d && !(pending == [])) = true
      · rw [if_pos hp] at h
        rcases List.mem_cons.mp h with h2 | h2
        · exact Or.inr (List.mem_cons.mpr (Or.inl h2))
        · rcases ih [] h2 with h3 | h3
          · simp at h3
          · exact Or.inr (List.mem_cons_of_mem d h3)
      · rw [if_neg hp] at h
        rcases List.mem_append.mp h with h2 | h2
        · exact Or.inl h2
        · rcases List.mem_cons.mp h2 with h3 | h3
          · exact Or.inr (List.mem_cons.mpr (Or.inl h3))
          · rcases ih [] h3 with h4 | h4
            · simp at h4
            · exact Or.inr (List.mem_cons_of_mem d h4)

theorem rmWsBeforePunct_wsA {l : Str} (h : wsA l) : wsA (rmWsBeforePunct l) := by
  intro c hc hws
  rcases mem_rmGo l [] hc with h2 | h2
  · simp at h2
  · exact h c h2 hws

theorem rm_out_aux (n : ℕ) : ∀ l : Str, l.length ≤ n → wsB l →
    wsB (rmWsBeforePunct l) ∧ wsP (rmWsBeforePunct l) := by
  induction n with
  | zero =>
    intro l hl _
    have : l = [] := List.eq_nil_of_length_eq_zero (by omega)
    subst this
    exact ⟨List.chain'_nil, List.chain'_nil⟩
  | succ n ih =>
    intro l hl hb
    cases l with
    | nil => exact ⟨List.chain'_nil, List.chain'_nil⟩
    | cons c cs =>
      by_cases hcws : isJsWs c = true
      · cases cs with
        | nil =>
          have heq : rmWsBeforePunct [c] = [c] := by
            rw [show rmWsBeforePunct [c] = rmGo [] [c] from rfl, rmGo_cons_ws [] [] hcws,
              rmGo_nil]
            rfl
          rw [heq]
          exact ⟨List.chain'_singleton c, List.chain'_singleton c⟩
        | cons d l2 =>
          have hdws : isJsWs d = false := (List.chain'_cons.mp hb).1 hcws
          have hb2 : wsB l2 := List.Chain'.tail (List.Chain'.tail hb)
          have hlen2 : l2.length ≤ n := by simp at hl; omega
          obtain ⟨ihB, ihP⟩ := ih l2 hlen2 hb2
          rw [show rmWsBeforePunct (c :: d :: l2) = rmGo [] (c :: d :: l2) from rfl,
            rmGo_cons_ws [] _ hcws]
          by_cases hdp : isPunct d = true
          · rw [show ([] : Str) ++ [c] = [c] from rfl, rmGo_pend_punct l2 hdws hdp]
            constructor
            · rw [wsB, List.chain'_cons']
              exact ⟨fun e he hdw => absurd hdw (by simp [hdws]), ihB⟩
            · rw [wsP, List.chain'_cons']
              exact ⟨fun e he hdw => absurd hdw (by simp [hdws]), ihP⟩
          · rw [show ([] : Str) ++ [c] = [c] from rfl,
              rmGo_pend_not_punct l2 hdws (by simpa using hdp)]
            constructor
            · rw [wsB, List.chain'_cons']
              refine ⟨fun e he _ => ?_, ?_⟩
              · rw [List.head?_cons, Option.mem_some_iff] at he
                subst he
                exact hdws
              · rw [List.chain'_cons']
                exact ⟨fun e he hdw => absurd hdw (by simp [hdws]), ihB⟩
            · rw [wsP, List.chain'_cons']
              refine ⟨fun e he _ => ?_, ?_⟩
              · rw [List.head?_cons, Option.mem_some_iff] at he
                subst he
                simpa using hdp
              · rw [List.chain'_cons']
                exact ⟨fun e he hdw => absurd hdw (by simp [hdws]), ihP⟩
      · have hb2 : wsB cs := List.Chain'.tail hb
        have hlen2 : cs.length ≤ n := by simp at hl; omega
        obtain ⟨ihB, ihP⟩ := ih cs hlen2 hb2
        rw [show rmWsBeforePunct (c :: cs) = rmGo [] (c :: cs) from rfl,
          rmGo_cons_not_ws cs (by simpa using hcws)]
        constructor
        · rw [wsB, List.chain'_cons']
          exact ⟨fun e he hcw => absurd hcw (by simpa using hcws), ihB⟩
        · rw [wsP, List.chain'_cons']
          exact ⟨fun e he hcw => absurd hcw (by simpa using hcws), ihP⟩

theorem rm_wsB {l : Str} (h : wsB l) : wsB (rmWsBeforePunct l) :=
  (rm_out_aux l.length l (le_refl _) h).1

theorem rm_wsP {l : Str} (h : wsB l) : wsP (rmWsBeforePunct l) :=
  (rm_out_aux l.length l (le_refl _) h).2

theorem rm_headOk {l : Str} (h : headOkWs l) : headOkWs (rmWsBeforePunct l) := by
  cases l with
  | nil => simp [rmWsBeforePunct, rmGo_nil, headOkWs]
  | cons c cs =>
    have hcws : isJsWs c = false := h c (by simp)
    rw [show rmWsBeforePunct (c :: cs) = rmGo [] (c :: cs) from rfl,
      rmGo_cons_not_ws cs hcws]
    intro e he
    rw [List.head?_cons, Option.mem_some_iff] at he
    subst he
    exact hcws

theorem rm_lastOk_aux (n : ℕ) : ∀ l : Str, l.length ≤ n → wsB l → lastOkWs l →
    lastOkWs (rmWsBeforePunct l) := by
  induction n with
  | zero =>
    intro l hl _ _
    have : l = [] := List.eq_nil_of_length_eq_zero (by omega)
    subst this
    simp [rmWsBeforePunct, rmGo_nil, lastOkWs]
  | succ n ih =>
    intro l hl hb hlast
    cases l with
    | nil => simp [rmWsBeforePunct, rmGo_nil, lastOkWs]
    | cons c cs =>
      by_cases hcws : isJsWs c = true
      · cases cs with
        | nil => exact absurd (hlast c (by simp)) (by simp [hcws])
        | cons d l2 =>
          have hdws : isJsWs d = false := (List.chain'_cons.mp hb).1 hcws
          have hb2 : wsB l2 := List.Chain'.tail (List.Chain'.tail hb)
          have hlen2 : l2.length ≤ n := by simp at hl; omega
          rw [show rmWsBeforePunct (c :: d :: l2) = rmGo [] (c :: d :: l2) from rfl,
            rmGo_cons_ws [] _ hcws, show ([] : Str) ++ [c] = [c] from rfl]
          have hlast2 : lastOkWs l2 → lastOkWs (rmWsBeforePunct l2) :=
            fun h2 => ih l2 hlen2 hb2 h2
          by_cases hl2nil : l2 = []
          · subst hl2nil
            by_cases hdp : isPunct d = true
            · rw [rmGo_pend_punct [] hdws hdp]
              intro e he
              simp only [rmGo_nil] at he
              rw [List.getLast?_singleton, Option.mem_some_iff] at he
              subst he
              exact hdws
            · rw [rmGo_pend_not_punct [] hdws (by simpa using hdp)]
              intro e he
              simp only [rmGo_nil] at he
              rw [getLast_cons_ne_nil (by simp), List.getLast?_singleton,
                Option.mem_some_iff] at he
              subst he
              exact hdws
          · have hrm_ne : rmGo [] l2 ≠ [] := rmGo_ne_nil [] l2 (Or.inr hl2nil)
            have hlast_l2 : lastOkWs l2 := by
              intro e he
              apply hlast
              rw [getLast_cons_ne_nil (by simp), getLast_cons_ne_nil hl2nil]
              exact he
            have hout := hlast2 hlast_l2
            by_cases hdp : isPunct d = true
            · rw [rmGo_pend_punct l2 hdws hdp]
              intro e he
              rw [getLast_cons_ne_nil hrm_ne] at he
              exact hout e he
            · rw [rmGo_pend_not_punct l2 hdws (by simpa using hdp)]
              intro e he
              rw [getLast_cons_ne_nil (by simp), getLast_cons_ne_nil hrm_ne] at he
              exact hout e he
      · rw [show rmWsBeforePunct (c :: cs) = rmGo [] (c :: cs) from rfl,
          rmGo_cons_not_ws cs (by simpa using hcws)]
        by_cases hcs_nil : cs = []
        · subst hcs_nil
          intro e he
          simp only [rmWsBeforePunct, rmGo_nil] at he
          rw [List.getLast?_singleton, Option.mem_some_iff] at he
          subst he
          simpa using hcws
        · have hrm_ne : rmGo [] cs ≠ [] := rmGo_ne_nil [] cs (Or.inr hcs_nil)
          have hlast_cs : lastOkWs cs := by
            intro e he
            apply hlast
            rw [getLast_cons_ne_nil hcs_nil]
            exact he
          have hout := ih cs (by simp at hl; omega) (List.Chain'.tail hb) hlast_cs
          intro e he
          rw [getLast_cons_ne_nil hrm_ne] at he
          exact hout e he

theorem rm_lastOk {l : Str} (hb : wsB l) (hl : lastOkWs l) :
    lastOkWs (rmWsBeforePunct l) :=
  rm_lastOk_aux l.length l (le_refl _) hb hl

/-! #### `addSpaceAfterPunct` facts -/

theorem addSp_cons_not_punct {c : Char} (l : Str) (h : isPunct c = false) :
    addSpaceAfterPunct (c :: l) = c :: addSpaceAfterPunct l := by
  cases l with
  | nil => rfl
  | cons d ds =>
    simp only [addSpaceAfterPunct, h, Bool.false_and, Bool.false_eq_true, if_false]

theorem addSp_match {c1 c2 : Char} (l : Str) (h1 : isPunct c1 = true)
    (h2 : isJsWs c2 = false) :
    addSpaceAfterPunct (c1 :: c2 :: l) = c1 :: ' ' :: c2 :: addSpaceAfterPunct l := by
  simp [addSpaceAfterPunct, h1, h2]

theorem addSp_ws {c1 c2 : Char} (l : Str) (h2 : isJsWs c2 = true) :
    addSpaceAfterPunct (c1 :: c2 :: l) = c1 :: addSpaceAfterPunct (c2 :: l) := by
  simp only [addSpaceAfterPunct, h2]
  rw [if_neg (by simp)]

theorem addSp_head (l : Str) : (addSpaceAfterPunct l).head? = l.head? := by
  cases l with
  | nil => rfl
  | cons c1 cs =>
    cases cs with
    | nil => rfl
    | cons c2 ds =>
      by_cases hc : (isPunct c1 && !isJsWs c2) = true
      · simp [addSpaceAfterPunct, hc]
      · simp only [addSpaceAfterPunct, if_neg hc]
        simp

theorem addSp_cons_ex (c : Char) (l : Str) :
    ∃ l', addSpaceAfterPunct (c :: l) = c :: l' := by
  cases l with
  | nil => exact ⟨[], rfl⟩
  | cons d ds =>
    by_cases hc : (isPunct c && !isJsWs d) = true
    · exact ⟨' ' :: d :: addSpaceAfterPunct ds, by simp [addSpaceAfterPunct, hc]⟩
    · exact ⟨addSpaceAfterPunct (d :: ds), by simp only [addSpaceAfterPunct, if_neg hc]⟩

theorem addSp_ne_nil {l : Str} (h : l ≠ []) : addSpaceAfterPunct l ≠ [] := by
  cases l with
  | nil => exact absurd rfl h
  | cons c cs =>
    obtain ⟨l', hl'⟩ := addSp_cons_ex c cs
    rw [hl']
    simp

theorem mem_addSp : ∀ (l : Str) (c : Char), c ∈ addSpaceAfterPunct l → c ∈ l ∨ c = ' ' := by
  intro l
  induction l using addSpaceAfterPunct.induct with
  | case1 =>
    intro c h
    rw [show addSpaceAfterPunct [] = [] from rfl] at h
    simp at h
  | case2 d =>
    intro c h
    rw [show addSpaceAfterPunct [d] = [d] from rfl] at h
    exact Or.inl h
  | case3 c1 c2 cs hcond ih =>
    intro c h
    simp only [addSpaceAfterPunct, if_pos hcond] at h
    rcases List.mem_cons.mp h with h2 | h2
    · exact Or.inl (by simp [h2])
    · rcases List.mem_cons.mp h2 with h3 | h3
      · exact Or.inr h3
      · rcases List.mem_cons.mp h3 with h4 | h4
        · exact Or.inl (by simp [h4])
        · rcases ih c h4 with h5 | h5
          · exact Or.inl (by simp [h5])
          · exact Or.inr h5
  | case4 c1 c2 cs hcond ih =>
    intro c h
    simp only [addSpaceAfterPunct, if_neg hcond] at h
    rcases List.mem_cons.mp h with h2 | h2
    · exact Or.inl (by simp [h2])
    · rcases ih c h2 with h3 | h3
      · exact Or.inl (List.mem_cons_of_mem c1 h3)
      · exact Or.inr h3

theorem addSp_wsA {l : Str} (h : wsA l) : wsA (addSpaceAfterPunct l) := by
  intro c hc hws
  rcases mem_addSp l c hc with h2 | h2
  · exact h c h2 hws
  · exact h2

theorem ws_not_punct {c : Char} (h : isJsWs c = true) : isPunct c = false := by
  cases hp : isPunct c
  · rfl
  · exact absurd h (by simp [punct_not_ws hp])

theorem addSp_wsB {l : Str} (h : wsB l) : wsB (addSpaceAfterPunct l) := by
  induction l using addSpaceAfterPunct.induct with
  | case1 => exact List.chain'_nil
  | case2 d => exact List.chain'_singleton d
  | case3 c1 c2 cs hcond ih =>
    obtain ⟨h1, h2⟩ := Bool.and_eq_true_iff.mp hcond
    have h2' : isJsWs c2 = false := by simpa using h2
    simp only [addSpaceAfterPunct, if_pos hcond]
    rw [wsB, List.chain'_cons']
    refine ⟨fun e he hws => absurd hws (by simp [punct_not_ws h1]), ?_⟩
    rw [List.chain'_cons']
    refine ⟨fun e he _ => ?_, ?_⟩
    · rw [List.head?_cons, Option.mem_some_iff] at he
      subst he
      exact h2'
    rw [List.chain'_cons']
    refine ⟨fun e he hws => ?_, ih (List.Chain'.tail (List.Chain'.tail h))⟩
    rw [addSp_head] at he
    exact (List.chain'_cons'.mp (List.Chain'.tail h)).1 e he hws
  | case4 c1 c2 cs hcond ih =>
    simp only [addSpaceAfterPunct, if_neg hcond]
    rw [wsB, List.chain'_cons']
    refine ⟨fun e he hws => ?_, ih (List.Chain'.tail h)⟩
    rw [addSp_head, List.head?_cons, Option.mem_some_iff] at he
    subst he
    exact (List.chain'_cons.mp h).1 hws

theorem addSp_lastOk {l : Str} (h : lastOkWs l) : lastOkWs (addSpaceAfterPunct l) := by
  induction l using addSpaceAfterPunct.induct with
  | case1 => exact h
  | case2 d => exact h
  | case3 c1 c2 cs hcond ih =>
    obtain ⟨h1, h2⟩ := Bool.and_eq_true_iff.mp hcond
    have h2' : isJsWs c2 = false := by simpa using h2
    simp only [addSpaceAfterPunct, if_pos hcond]
    by_cases hcs : cs = []
    · subst hcs
      intro e he
      rw [show addSpaceAfterPunct [] = [] from rfl] at he
      rw [getLast_cons_ne_nil (by simp), getLast_cons_ne_nil (by simp),
        List.getLast?_singleton, Option.mem_some_iff] at he
      subst he
      exact h2'
    · have hne : addSpaceAfterPunct cs ≠ [] := addSp_ne_nil hcs
      have hlast_cs : lastOkWs cs := by
        intro e he
        apply h
        rw [getLast_cons_ne_nil (by simp), getLast_cons_ne_nil hcs]
        exact he
      intro e he
      rw [getLast_cons_ne_nil (by simp), getLast_cons_ne_nil (by simp),
        getLast_cons_ne_nil hne] at he
      exact ih hlast_cs e he
  | case4 c1 c2 cs hcond ih =>
    simp only [addSpaceAfterPunct, if_neg hcond]
    have hne : addSpaceAfterPunct (c2 :: cs) ≠ [] := addSp_ne_nil (by simp)
    have hlast2 : lastOkWs (c2 :: cs) := by
      intro e he
      apply h
      rw [getLast_cons_ne_nil (by simp)]
      exact he
    intro e he
    rw [getLast_cons_ne_nil hne] at he
    exact ih hlast2 e he

/-- The core of idempotence: on a string with no whitespace run doubling and
no whitespace before punctuation, removing the spaces that the
add-space-after-punctuation pass produced before punctuation and running
that pass again reproduces its output. -/
theorem key_aux (n : ℕ) : ∀ z : Str, z.length ≤ n → wsB z → wsP z →
    addSpaceAfterPunct (rmWsBeforePunct (addSpaceAfterPunct z)) = addSpaceAfterPunct z := by
  induction n with
  | zero =>
    intro z hl _ _
    have : z = [] := List.eq_nil_of_length_eq_zero (by omega)
    subst this
    rfl
  | succ n ih =>
    intro z hl hb hp
    cases z with
    | nil => rfl
    | cons c1 rest =>
      cases rest with
      | nil =>
        rw [show addSpaceAfterPunct [c1] = [c1] from rfl]
        by_cases hws : isJsWs c1 = true
        · rw [show rmWsBeforePunct [c1] = rmGo [] [c1] from rfl, rmGo_cons_ws [] [] hws,
            rmGo_nil, show ([] : Str) ++ [c1] = [c1] from rfl]
          rfl
        · rw [show rmWsBeforePunct [c1] = rmGo [] [c1] from rfl,
            rmGo_cons_not_ws [] (by simpa using hws), rmGo_nil]
          rfl
      | cons c2 cs =>
        have hlen_cs : cs.length ≤ n := by
          simp only [List.length_cons] at hl ⊢
          omega
        have hlen_c2cs : (c2 :: cs).length ≤ n := by
          simp only [List.length_cons] at hl ⊢
          omega
        have hb_cs : wsB cs := List.Chain'.tail (List.Chain'.tail hb)
        have hp_cs : wsP cs := List.Chain'.tail (List.Chain'.tail hp)
        have hb_c2cs : wsB (c2 :: cs) := List.Chain'.tail hb
        have hp_c2cs : wsP (c2 :: cs) := List.Chain'.tail hp
        by_cases hpunct1 : isPunct c1 = true
        · by_cases hws2 : isJsWs c2 = true
          · -- punctuation then whitespace: the pass skips this pair
            have hnp2 : isPunct c2 = false := ws_not_punct hws2
            have hnw1 : isJsWs c1 = false := punct_not_ws hpunct1
            rw [addSp_ws cs hws2, addSp_cons_not_punct cs hnp2]
            cases cs with
            | nil =>
              rw [show addSpaceAfterPunct ([] : Str) = [] from rfl,
                show rmWsBeforePunct [c1, c2] = rmGo [] [c1, c2] from rfl,
                rmGo_cons_not_ws [c2] hnw1, rmGo_cons_ws [] [] hws2, rmGo_nil,
                show ([] : Str) ++ [c2] = [c2] from rfl,
                addSp_ws ([] : Str) hws2, addSp_cons_not_punct ([] : Str) hnp2]
              rfl
            | cons c3 cs2 =>
              have hnw3 : isJsWs c3 = false := (List.chain'_cons.mp hb_c2cs).1 hws2
              have hnp3 : isPunct c3 = false := (List.chain'_cons.mp hp_c2cs).1 hws2
              obtain ⟨l2, hl2⟩ := addSp_cons_ex c3 cs2
              rw [hl2,
                show rmWsBeforePunct (c1 :: c2 :: c3 :: l2) = rmGo [] (c1 :: c2 :: c3 :: l2)
                  from rfl,
                rmGo_cons_not_ws (c2 :: c3 :: l2) hnw1, rmGo_cons_ws [] (c3 :: l2) hws2,
                show ([] : Str) ++ [c2] = [c2] from rfl, rmGo_pend_not_punct l2 hnw3 hnp3,
                addSp_ws (c3 :: rmGo [] l2) hws2, addSp_cons_not_punct (c3 :: rmGo [] l2) hnp2]
              have hR : rmGo [] (c3 :: l2) = c3 :: rmGo [] l2 := rmGo_cons_not_ws l2 hnw3
              have := ih (c3 :: cs2) hlen_cs hb_cs hp_cs
              rw [hl2, show rmWsBeforePunct (c3 :: l2) = rmGo [] (c3 :: l2) from rfl, hR]
                at this
              rw [this]
          · -- punctuation then non-whitespace: a space is inserted
            have hnw2 : isJsWs c2 = false := by simpa using hws2
            have hnw1 : isJsWs c1 = false := punct_not_ws hpunct1
            rw [addSp_match cs hpunct1 hnw2,
              show rmWsBeforePunct (c1 :: ' ' :: c2 :: addSpaceAfterPunct cs) =
                rmGo [] (c1 :: ' ' :: c2 :: addSpaceAfterPunct cs) from rfl,
              rmGo_cons_not_ws (' ' :: c2 :: addSpaceAfterPunct cs) hnw1,
              rmGo_cons_ws [] (c2 :: addSpaceAfterPunct cs) space_is_ws,
              show ([] : Str) ++ [' '] = [' '] from rfl]
            by_cases hpunct2 : isPunct c2 = true
            · rw [rmGo_pend_punct (addSpaceAfterPunct cs) hnw2 hpunct2,
                addSp_match (rmGo [] (addSpaceAfterPunct cs)) hpunct1 hnw2]
              have := ih cs hlen_cs hb_cs hp_cs
              rw [show rmWsBeforePunct (addSpaceAfterPunct cs) =
                rmGo [] (addSpaceAfterPunct cs) from rfl] at this
              rw [this]
            · rw [rmGo_pend_not_punct (addSpaceAfterPunct cs) hnw2 (by simpa using hpunct2),
                addSp_ws (c2 :: rmGo [] (addSpaceAfterPunct cs)) space_is_ws,
                addSp_cons_not_punct (c2 :: rmGo [] (addSpaceAfterPunct cs)) space_not_punct,
                addSp_cons_not_punct (rmGo [] (addSpaceAfterPunct cs)) (by simpa using hpunct2)]
              have := ih cs hlen_cs hb_cs hp_cs
              rw [show rmWsBeforePunct (addSpaceAfterPunct cs) =
                rmGo [] (addSpaceAfterPunct cs) from rfl] at this
              rw [this]
        · -- head is not punctuation
          have hnp1 : isPunct c1 = false := by simpa using hpunct1
          rw [addSp_cons_not_punct (c2 :: cs) hnp1]
          obtain ⟨l2, hl2⟩ := addSp_cons_ex c2 cs
          by_cases hws1 : isJsWs c1 = true
          · -- whitespace head: the following character is neither ws nor punct
            have hnw2 : isJsWs c2 = false := (List.chain'_cons.mp hb).1 hws1
            have hnp2 : isPunct c2 = false := (List.chain'_cons.mp hp).1 hws1
            rw [hl2,
              show rmWsBeforePunct (c1 :: c2 :: l2) = rmGo [] (c1 :: c2 :: l2) from rfl,
              rmGo_cons_ws [] (c2 :: l2) hws1, show ([] : Str) ++ [c1] = [c1] from rfl,
              rmGo_pend_not_punct l2 hnw2 hnp2,
              addSp_cons_not_punct (c2 :: rmGo [] l2) hnp1]
            have hR : rmGo [] (c2 :: l2) = c2 :: rmGo [] l2 := rmGo_cons_not_ws l2 hnw2
            have := ih (c2 :: cs) hlen_c2cs hb_c2cs hp_c2cs
            rw [hl2, show rmWsBeforePunct (c2 :: l2) = rmGo [] (c2 :: l2) from rfl, hR] at this
            rw [this]
          · -- plain character head
            rw [hl2,
              show rmWsBeforePunct (c1 :: c2 :: l2) = rmGo [] (c1 :: c2 :: l2) from rfl,
              rmGo_cons_not_ws (c2 :: l2) (by simpa using hws1),
              addSp_cons_not_punct (rmGo [] (c2 :: l2)) hnp1]
            have := ih (c2 :: cs) hlen_c2cs hb_c2cs hp_c2cs
            rw [hl2, show rmWsBeforePunct (c2 :: l2) = rmGo [] (c2 :: l2) from rfl] at this
            rw [this]

theorem cleanText_idem (x : Str) : cleanText (cleanText x) = cleanText x := by
  by_cases hx : x = []
  · subst hx
    rfl
  · have ha1 : wsA (collapseWs x) := collapseWs_wsA x
    have hb1 : wsB (collapseWs x) := collapseWs_wsB x
    have ha2 : wsA (trimJs (collapseWs x)) := trimJs_wsA ha1
    have hb2 : wsB (trimJs (collapseWs x)) := trimJs_wsB hb1
    have hh2 : headOkWs (trimJs (collapseWs x)) := trimJs_headOk _
    have hl2 : lastOkWs (trimJs (collapseWs x)) := trimJs_lastOk _
    set z := rmWsBeforePunct (trimJs (collapseWs x)) with hzdef
    have haz : wsA z := rmWsBeforePunct_wsA ha2
    have hbz : wsB z := rm_wsB hb2
    have hpz : wsP z := rm_wsP hb2
    have hhz : headOkWs z := rm_headOk hh2
    have hlz : lastOkWs z := rm_lastOk hb2 hl2
    set y := addSpaceAfterPunct z with hydef
    have hay : wsA y := addSp_wsA haz
    have hby : wsB y := addSp_wsB hbz
    have hhy : headOkWs y := by
      intro c hc
      rw [hydef, addSp_head] at hc
      exact hhz c hc
    have hly : lastOkWs y := addSp_lastOk hlz
    have hclean : cleanText x = y := by
      rw [cleanText, if_neg hx, ← hzdef, ← hydef]
      exact trimJs_fix hhy hly
    rw [hclean]
    by_cases hy : y = []
    · rw [hy]
      rfl
    · rw [cleanText, if_neg hy, show collapseWs y = collapseGo false y from rfl,
        (collapseGo_fix y hay hby).1, trimJs_fix hhy hly, hydef,
        key_aux z.length z (le_refl _) hbz hpz, ← hydef]
      exact trimJs_fix hhy hly

/-- **C8** (confirmed).  The text cleaner is idempotent, and on the spec's
concrete input it normalises spacing around punctuation as stated. -/
theorem c8_clean_idempotent :
    (∀ x : Str, cleanText (cleanText x) = cleanText x) ∧
      cleanText "Hello ,  world .  Next".data = "Hello, world. Next".data :=
  ⟨cleanText_idem, by decide⟩
